import Mathlib

/-!
# A verification development for the `gif_load` GIF decoder

This file gives a shallow embedding in Lean 4 of the single-header GIF
loader `gif_load.h` (functions `_GIF_SkipChunk`, `_GIF_LoadFrameHdr`,
`_GIF_LoadFrame` and `GIF_Load`) and proves properties of the embedding.

Modelling conventions:
* The input buffer is a `List Nat` of byte values; `byteAt` reads one byte
  (out-of-range reads yield 0, matching the fact that in every in-bounds
  execution path the value of such a read is never consumed).
* Pointers into the buffer are modelled as `Int` offsets; the C `long`
  sizes are `Int`.
* `uint8_t` reads are reduced `% 256`; `uint16_t` values `% 65536`;
  the 32-bit LZW dictionary cells `% 2^32`.
* The LZW dictionary (the 4096-cell scratch area preceding the raster in
  the single allocation) is a total function `Nat → Nat`; its initial
  contents are a parameter, because the C allocation leaves it
  uninitialised.  Every read is reduced `% 2^32` as a `uint32_t` load.
* Loops whose termination depends only on a decreasing size counter are
  defined by well-founded recursion on that counter; the LZW code loops,
  whose termination is not obvious on adversarial inputs, take explicit
  fuel and return `Option` (`none` = fuel exhausted).
* Calls to the frame sink `gwfr`, to the metadata sink `amdf` and to the
  allocator hook `GIF_MGET` are recorded as events in returned lists.
-/

set_option linter.unusedVariables false
set_option linter.unnecessarySeqFocus false

namespace GifLoad

/-- Read one byte of the input buffer (modelling a `uint8_t` load at an
`Int` offset; out-of-range reads give 0). -/
def byteAt (d : List Nat) (i : Int) : Nat :=
  if i < 0 then 0 else d.getD i.toNat 0 % 256

/-- Read a little-endian `uint16_t`, the value of
`_GIF_SWAP(*(GIF_H*)p)` on either endianness. -/
def u16le (d : List Nat) (i : Int) : Nat :=
  byteAt d i + 256 * byteAt d (i + 1)

theorem byteAt_lt_256 (d : List Nat) (i : Int) : byteAt d i < 256 := by
  unfold byteAt
  split
  · omega
  · exact Nat.mod_lt _ (by omega)

theorem byteAt_eq_zero_of_neg (d : List Nat) (i : Int) (h : i < 0) :
    byteAt d i = 0 := by
  simp [byteAt, h]

theorem byteAt_eq_zero_of_ge (d : List Nat) (i : Int) (h : (d.length : Int) ≤ i) :
    byteAt d i = 0 := by
  unfold byteAt
  split
  · rfl
  · rename_i hn
    have : d.length ≤ i.toNat := by omega
    rw [List.getD_eq_default _ _ this]

theorem u16le_lt_65536 (d : List Nat) (i : Int) : u16le d i < 65536 := by
  have h1 := byteAt_lt_256 d i
  have h2 := byteAt_lt_256 d (i + 1)
  unfold u16le
  omega

/-! ## `_GIF_SkipChunk` -/

/-- Result of the chunk skipper: success flag, final cursor, final size. -/
structure SkipOut where
  ok   : Bool
  pos  : Int
  size : Int
  deriving Repr, DecidableEq

/-- The `do { ... } while (skip > 1)` loop of `_GIF_SkipChunk`, with an
iteration bound (each iteration consumes at least 2 of `size` to
continue, so `size.toNat + 1` iterations always suffice). -/
def skipLoopGo (d : List Nat) : Nat → Int → Int → SkipOut
  | 0, pos, size => ⟨false, pos, size⟩
  | fuel + 1, pos, size =>
    let skip : Int := 1 + byteAt d pos
    let pos' := pos + skip
    let size' := size - skip
    if size' ≤ 0 then ⟨false, pos', size'⟩
    else if 1 < skip then skipLoopGo d fuel pos' size'
    else ⟨true, pos', size'⟩

/-- The `do { ... } while (skip > 1)` loop of `_GIF_SkipChunk`. -/
def GIF_SkipLoop (d : List Nat) (pos size : Int) : SkipOut :=
  skipLoopGo d (size.toNat + 1) pos size

theorem skipLoopGo_stable (d : List Nat) :
    ∀ (f₁ f₂ : Nat) (pos size : Int), size.toNat < f₁ → size.toNat < f₂ →
      skipLoopGo d f₁ pos size = skipLoopGo d f₂ pos size := by
  intro f₁
  induction f₁ with
  | zero => omega
  | succ f₁ ih =>
    intro f₂ pos size h₁ h₂
    match f₂, h₂ with
    | f₂ + 1, h₂ =>
      show skipLoopGo d (f₁ + 1) pos size = skipLoopGo d (f₂ + 1) pos size
      simp only [skipLoopGo]
      split
      · rfl
      · split
        · rename_i hgt hskip
          have hb : (0 : Int) ≤ byteAt d pos := Int.ofNat_nonneg _
          exact ih f₂ _ _ (by omega) (by omega)
        · rfl

/-- One-step unfolding of `GIF_SkipLoop`, matching the C loop body. -/
theorem GIF_SkipLoop_eq (d : List Nat) (pos size : Int) :
    GIF_SkipLoop d pos size =
      (let skip : Int := 1 + byteAt d pos
       let pos' := pos + skip
       let size' := size - skip
       if size' ≤ 0 then ⟨false, pos', size'⟩
       else if 1 < skip then GIF_SkipLoop d pos' size'
       else ⟨true, pos', size'⟩) := by
  show skipLoopGo d (size.toNat + 1) pos size = _
  conv_lhs => rw [skipLoopGo]
  dsimp only
  split
  · rfl
  · split
    · rename_i hgt hskip
      have hb : (0 : Int) ≤ byteAt d pos := Int.ofNat_nonneg _
      exact skipLoopGo_stable d _ _ _ _ (by omega) (by omega)
    · rfl

/-- `_GIF_SkipChunk(buff, size)`: skip one byte, then advance past one
sub-block chain. -/
def GIF_SkipChunk (d : List Nat) (pos size : Int) : SkipOut :=
  let pos' := pos + 1
  let size' := size - 1
  if size' ≤ 0 then ⟨false, pos', size'⟩ else GIF_SkipLoop d pos' size'

/-- Iteration-bounded walk of a sub-block chain (each step advances the
position by at least one, and any position at or beyond the end of the
buffer reads a zero byte, so `d.length + 1` steps always suffice). -/
def chainWalkGo (d : List Nat) : Nat → Int → Int
  | 0, pos => pos + 1
  | fuel + 1, pos =>
    if byteAt d pos = 0 then pos + 1
    else chainWalkGo d fuel (pos + 1 + byteAt d pos)

/-- Specification-side walk of a sub-block chain: starting at the chain's
first length byte, returns the position one past the zero-length
terminator (for the amended form of the skip-chunk claim). -/
def chainWalk (d : List Nat) (pos : Int) : Int :=
  chainWalkGo d (d.length + 1) pos

theorem chainWalkGo_stable (d : List Nat) :
    ∀ (f₁ f₂ : Nat) (pos : Int), (d.length : Int) - pos < f₁ →
      (d.length : Int) - pos < f₂ →
      chainWalkGo d f₁ pos = chainWalkGo d f₂ pos := by
  intro f₁
  induction f₁ with
  | zero =>
    intro f₂ pos h₁ h₂
    have hz : byteAt d pos = 0 := by
      rcases lt_or_le pos 0 with hneg | hpos
      · exact byteAt_eq_zero_of_neg d pos hneg
      · exact byteAt_eq_zero_of_ge d pos (by omega)
    match f₂ with
    | 0 => rfl
    | f₂ + 1 =>
      show _ = chainWalkGo d (f₂ + 1) pos
      simp [chainWalkGo, hz]
  | succ f₁ ih =>
    intro f₂ pos h₁ h₂
    match f₂ with
    | 0 =>
      have hz : byteAt d pos = 0 := by
        rcases lt_or_le pos 0 with hneg | hpos
        · exact byteAt_eq_zero_of_neg d pos hneg
        · exact byteAt_eq_zero_of_ge d pos (by omega)
      show chainWalkGo d (f₁ + 1) pos = _
      simp [chainWalkGo, hz]
    | f₂ + 1 =>
      show chainWalkGo d (f₁ + 1) pos = chainWalkGo d (f₂ + 1) pos
      simp only [chainWalkGo]
      split
      · rfl
      · rename_i hnz
        have hb : 0 < byteAt d pos := Nat.pos_of_ne_zero hnz
        exact ih f₂ _ (by omega) (by omega)

/-- One-step unfolding of `chainWalk`. -/
theorem chainWalk_eq (d : List Nat) (pos : Int) :
    chainWalk d pos =
      (if byteAt d pos = 0 then pos + 1
       else chainWalk d (pos + 1 + byteAt d pos)) := by
  show chainWalkGo d (d.length + 1) pos = _
  conv_lhs => rw [chainWalkGo]
  split
  · rfl
  · rename_i hnz
    have hb : 0 < byteAt d pos := Nat.pos_of_ne_zero hnz
    have hpos : 0 ≤ pos := by
      by_contra hneg
      exact hnz (byteAt_eq_zero_of_neg d pos (by omega))
    have hlen : pos < (d.length : Int) := by
      by_contra hge
      exact hnz (byteAt_eq_zero_of_ge d pos (by omega))
    exact chainWalkGo_stable d _ _ _ (by omega) (by omega)

/-! ## `_GIF_LoadFrameHdr` -/

/-- Result of the frame-header parser: colour count (negative = error),
final cursor and size, and the active-palette pointer. -/
structure FHOut where
  rclr : Int
  pos  : Int
  size : Int
  rpal : Option Int
  deriving Repr, DecidableEq

/-- `_GIF_LoadFrameHdr(buff, size, flen, gflg, fflg, rpal)`.
`flen` is the frame-descriptor length (9) or 0 for the global-palette
sizing call; `gflg`/`fflg` are the global/frame flag bytes. -/
def GIF_LoadFrameHdr (d : List Nat) (pos size flen : Int) (gflg fflg : Nat)
    (rpal : Option Int) : FHOut :=
  if flen ≠ 0 then
    let pos1 := pos + flen
    let size1 := size - flen
    if size1 ≤ 0 then ⟨-2, pos1, size1, rpal⟩
    else if fflg &&& 0x80 ≠ 0 then
      -- local palette has priority
      let rclr : Int := 2 <<< (fflg &&& 7)
      let pos2 := pos1 + rclr * 3
      let size2 := size1 - rclr * 3
      if size2 ≤ 0 then ⟨-1, pos2, size2, some pos1⟩
      else ⟨rclr, pos2, size2, some pos1⟩
    else if gflg &&& 0x80 ≠ 0 then ⟨2 <<< (gflg &&& 7), pos1, size1, rpal⟩
    else ⟨0, pos1, size1, rpal⟩
  else if gflg &&& 0x80 ≠ 0 then ⟨2 <<< (gflg &&& 7), pos, size, rpal⟩
  else ⟨0, pos, size, rpal⟩

/-! ## `_GIF_LoadFrame`: the LZW expander

The three nested loops of `_GIF_LoadFrame` (the `do {} while` over
sub-blocks, the `for` over 16-bit loads, the `while (bszc >= 0)` over
codes) are `lfBlocks`, `lfWords` and `lfCodes`; the in-place suffix-chain
expansion (`while (!0) { *bptr-- = ...; }`) is `lfExpand`.  All four take
fuel.  The state record `LZS` carries the C locals of the same names. -/

/-- Exit tag of the LZW expander: which `return` of `_GIF_LoadFrame` was
taken.  `chainEnd` is the `return 0` at the end of the function, reached
exactly when a zero-length sub-block is read before any end-of-data code
(the "RECOVERABLE ERROR" path); `edOk`/`edBad` are `return 1` / `return -1`
from the end-of-data code branch; `err` is any of the `-5 … -2` returns. -/
inductive LFTag where
  | edOk | edBad | chainEnd | err
  deriving Repr, DecidableEq

/-- The local state of `_GIF_LoadFrame`.  `wp` is the write cursor `bptr`
as an offset from the start of the frame's pixel region; `pix` logs the
pixel-byte writes `(offset, value)` in order; `acc` logs every index used
to read or write the 4096-entry dictionary `code[]`. -/
structure LZS where
  pos  : Int
  size : Int
  dict : Nat → Nat
  wp   : Int
  pix  : List (Int × Nat)
  acc  : List Nat
  load : Nat
  curr : Nat
  prev : Nat
  ctbl : Nat
  mask : Nat
  ctsz : Nat
  ccsz : Nat
  bszc : Int
  bseq : Int

/-- Read a dictionary cell as a `uint32_t`. -/
def rd32 (dict : Nat → Nat) (i : Nat) : Nat := dict i % 2 ^ 32

/-- Write a dictionary cell. -/
def wr32 (dict : Nat → Nat) (i v : Nat) : Nat → Nat :=
  fun j => if j = i then v else dict j

/-- The in-place expansion loop: writes the string for entry `iter`
backwards into the raster, following the prefix chain, and returns the
entry at the head of the chain (`code[iter]` with zero length field). -/
def lfExpand (fuel : Nat) (st : LZS) (iter : Nat) : Option (LZS × Nat) :=
  match fuel with
  | 0 => none
  | fuel + 1 =>
    let e := rd32 st.dict iter
    let st := { st with pix := st.pix ++ [(st.wp, e >>> 24)],
                        wp := st.wp - 1,
                        acc := st.acc ++ [iter] }
    if e &&& 0xFFF000 = 0 then some (st, iter)
    else lfExpand fuel st (e &&& 0xFFF)

/-- The common tail of one code iteration:
`prev = curr; curr = load; bszc -= ccsz; load >>= ccsz`. -/
def lfAdvance (st : LZS) : LZS :=
  { st with prev := st.curr, curr := st.load,
            bszc := st.bszc - (st.ccsz : Int),
            load := (st.load >>> st.ccsz) % 65536 }

/-- The part of the SP/MP branch before the expansion loop: grow the
table, append the new dictionary entry, pick the entry to expand
(`iter`), read its length field into `prev`, advance the write cursor.
The input state's `curr` is already masked. -/
def lfSpmPre (st : LZS) : LZS × Nat :=
  let ctbl := st.ctbl + 1
  let st : LZS := { st with ctbl }
  let st : LZS :=
    if ctbl < 4096 then
      let st : LZS :=
        if ctbl = st.mask ∧ ctbl < 4096 - 1 then
          { st with mask := (st.mask + st.mask + 1) % 65536,
                    ccsz := st.ccsz + 1 }
        else st
      { st with dict := wr32 st.dict ctbl
                  ((st.prev + 0x1000 + (rd32 st.dict st.prev &&& 0xFFF000))
                    % 2 ^ 32),
                acc := st.acc ++ [st.prev, ctbl] }
    else st
  let iter := if st.curr ≥ st.ctbl then st.prev else st.curr
  let lng := (rd32 st.dict iter >>> 12) &&& 0xFFF
  ({ st with prev := lng, wp := st.wp + lng, acc := st.acc ++ [iter] }, iter)

/-- The part of the SP/MP branch after the expansion loop: restore the
write cursor, append the KwKwK suffix pixel when `curr >= ctbl`, patch
the new entry's suffix byte, then the common advance. -/
def lfSpmPost (st : LZS) (iterF : Nat) : LZS :=
  let st : LZS := { st with wp := st.wp + st.prev + 2 }
  let st : LZS :=
    if st.curr ≥ st.ctbl then
      { st with pix := st.pix ++ [(st.wp, rd32 st.dict iterF >>> 24)],
                wp := st.wp + 1,
                acc := st.acc ++ [iterF] }
    else st
  let st : LZS :=
    if st.ctbl < 4096 then
      { st with dict := wr32 st.dict st.ctbl
                  (rd32 st.dict st.ctbl ||| (rd32 st.dict iterF &&& 0xFF000000)),
                acc := st.acc ++ [iterF, st.ctbl] }
    else st
  lfAdvance st

/-- One-or-more iterations of `while (bszc >= 0)`: splits the
already-loaded bits into codes and interprets them.  Returns `.inl st`
on normal exit from the `while` (continue the `for`), `.inr` when one of
the function's `return` statements fires. -/
def lfCodes (d : List Nat) (fuel : Nat) (st : LZS) :
    Option (LZS ⊕ (LZS × Int × LFTag)) :=
  match fuel with
  | 0 => none
  | fuel + 1 =>
    if st.bszc < 0 then some (.inl st)
    else
      let curr := st.curr &&& st.mask
      if curr &&& (2 ^ 64 - 2) = 1 <<< st.ctsz then
        if curr &&& 1 ≠ 0 then
          -- end-of-data code (ED)
          let pos := st.pos + st.bseq
          let size := st.size - 1
          let b := byteAt d pos
          let st := { st with curr, pos := pos + 1, size }
          some (.inr (st, if b ≠ 0 then -1 else 1,
                      if b ≠ 0 then LFTag.edBad else LFTag.edOk))
        else
          -- table drop code (TD)
          lfCodes d fuel (lfAdvance
            { st with curr,
                      ctbl := 1 <<< st.ctsz,
                      ccsz := st.ctsz + 1,
                      mask := ((1 <<< (st.ctsz + 1)) - 1) % 65536 })
      else
        -- single-pixel (SP) or multi-pixel (MP) code
        match lfSpmPre { st with curr } with
        | (stM, iter) =>
          match lfExpand fuel stM iter with
          | none => none
          | some (stE, iterF) => lfCodes d fuel (lfSpmPost stE iterF)

/-- The `for (; bseq > 0; bseq -= GIF_HLEN, *buff += GIF_HLEN)` loop:
loads 16 bits at a time and feeds `lfCodes`. -/
def lfWords (d : List Nat) (fuel : Nat) (st : LZS) :
    Option (LZS ⊕ (LZS × Int × LFTag)) :=
  match fuel with
  | 0 => none
  | fuel + 1 =>
    if st.bseq > 0 then
      let w := u16le d st.pos
      let load := w &&& (if st.bseq < 2 then (1 <<< (8 * st.bseq.toNat)) - 1
                         else 0xFFFF)
      let curr := st.curr ||| ((load <<< ((st.ccsz : Int) + st.bszc).toNat)
                    % 2 ^ 64)
      let load2 := (load >>> (-st.bszc).toNat) % 65536
      let bszc := st.bszc + 8 * (if st.bseq < 2 then st.bseq else 2)
      let st := { st with curr, load := load2, bszc }
      match lfCodes d fuel st with
      | none => none
      | some (.inr r) => some (.inr r)
      | some (.inl st) =>
        lfWords d fuel { st with bseq := st.bseq - 2, pos := st.pos + 2 }
    else some (.inl st)

/-- The `do { ... } while ((bseq = *(*buff)++))` loop over sub-blocks. -/
def lfBlocks (d : List Nat) (fuel : Nat) (st : LZS) :
    Option (LZS × Int × LFTag) :=
  match fuel with
  | 0 => none
  | fuel + 1 =>
    let size := st.size - (st.bseq + 1)
    if size ≤ 0 then some ({ st with size }, -5, .err)
    else
      match lfWords d fuel { st with size } with
      | none => none
      | some (.inr r) => some r
      | some (.inl st) =>
        let pos := st.pos + st.bseq
        let bseq := byteAt d pos
        let pos := pos + 1
        if bseq ≠ 0 then
          lfBlocks d fuel { st with pos, bseq := (bseq : Int) }
        else
          some ({ st with pos, size := st.size - 1, bseq := 0 }, 0, .chainEnd)

/-- Result of `_GIF_LoadFrame`: return value, final cursor and size, final
dictionary, pixel-write log, dictionary-access log, exit tag. -/
structure LFOut where
  ret  : Int
  pos  : Int
  size : Int
  dict : Nat → Nat
  pix  : List (Int × Nat)
  acc  : List Nat
  tag  : LFTag

/-- `_GIF_LoadFrame(buff, size, bptr)`.  `dict0` is the (uninitialised)
content of the 4096-entry scratch area `code[]`. -/
def GIF_LoadFrame (d : List Nat) (fuel : Nat) (pos size : Int)
    (dict0 : Nat → Nat) : Option LFOut :=
  let size1 := size - 1
  if size1 ≤ 2 then some ⟨-5, pos, size1, dict0, [], [], .err⟩
  else
    let ctsz := byteAt d pos
    let ccsz := ctsz + 1
    let mask := ((1 <<< ccsz) - 1) % 65536
    let pos1 := pos + 1
    let bseq := byteAt d pos1
    let pos2 := pos1 + 1
    if bseq = 0 then some ⟨-4, pos2, size1, dict0, [], [], .err⟩
    else if ctsz < 2 ∨ ctsz > 8 then some ⟨-3, pos2, size1, dict0, [], [], .err⟩
    else
      let ctbl := 1 <<< ctsz
      let curr := mask &&& u16le d pos2
      if ctbl ≠ curr then some ⟨-2, pos2, size1, dict0, [], [], .err⟩
      else
        -- persistent table items: code[iter] = iter << 24 for iter < ctbl
        let dict := fun i => if i < ctbl then i <<< 24 else dict0 i
        let st0 : LZS :=
          { pos := pos2, size := size1, dict, wp := 0, pix := [],
            acc := List.range ctbl, load := 0, curr, prev := 0, ctbl, mask,
            ctsz, ccsz, bszc := -(ccsz : Int), bseq := (bseq : Int) }
        match lfBlocks d fuel st0 with
        | none => none
        | some (st, r, tag) => some ⟨r, st.pos, st.size, st.dict, st.pix, st.acc, tag⟩

/-- Function-free view of an `LFOut`, for decidable statements about
concrete runs. -/
structure LFView where
  ret  : Int
  pos  : Int
  size : Int
  pix  : List (Int × Nat)
  tag  : LFTag
  deriving Repr, DecidableEq

/-- Project an `LFOut` to its function-free view. -/
def lfView (o : LFOut) : LFView := ⟨o.ret, o.pos, o.size, o.pix, o.tag⟩

/-! ## `GIF_Load`: the two-pass container walker -/

/-- Result of the frame-counting pass (`while ((desc = *whdr.bptr++) !=
GIF_EOFM)` in `GIF_Load`): the descriptor byte on exit (0x3B iff the
terminator was reached), the frame count, final cursor and size. -/
structure P1Out where
  desc : Nat
  ifrm : Int
  pos  : Int
  size : Int
  deriving Repr, DecidableEq

/-- The frame-counting pass.  `gflg` is the global-header flag byte. -/
def GIF_Pass1 (d : List Nat) (gflg : Nat) :
    Nat → Int → Int → Int → Option P1Out
  | 0, _, _, _ => none
  | fuel + 1, pos, blen, ifrm =>
    let desc := byteAt d pos
    let pos := pos + 1
    if desc = 0x3B then some ⟨desc, ifrm, pos, blen⟩
    else
      let blen := blen - 1
      if desc = 0x2C then
        let fflg := byteAt d (pos + 8)
        let fh := GIF_LoadFrameHdr d pos blen 9 gflg fflg none
        if fh.rclr ≤ 0 then some ⟨desc, ifrm, fh.pos, fh.size⟩
        else
          let ifrm := ifrm + 1
          let sc := GIF_SkipChunk d fh.pos fh.size
          if sc.ok then GIF_Pass1 d gflg fuel sc.pos sc.size ifrm
          else some ⟨desc, ifrm, sc.pos, sc.size⟩
      else
        let sc := GIF_SkipChunk d pos blen
        if sc.ok then GIF_Pass1 d gflg fuel sc.pos sc.size ifrm
        else some ⟨desc, ifrm, sc.pos, sc.size⟩

/-- A frame descriptor as passed to the frame sink `gwfr` (the `GIF_WHDR`
snapshot `wtmp`, minus the two pointers, which are surfaced as buffer
offsets: `cpal` is the offset of the active palette). -/
structure WRec where
  xdim : Int
  ydim : Int
  clrs : Int
  bkgd : Int
  tran : Int
  intr : Int
  mode : Int
  frxd : Int
  fryd : Int
  frxo : Int
  fryo : Int
  time : Int
  ifrm : Int
  nfrm : Int
  cpal : Int
  deriving Repr, DecidableEq

/-- An observable event of the extraction pass: a frame delivered to the
frame sink `gwfr` (with the pixel writes of its LZW decode and the
graphics-control-extension pointer in effect), or an application-metadata
chunk passed to `amdf` (identified by the offset of its app header). -/
inductive Ev where
  | frame (w : WRec) (pix : List (Int × Nat)) (gce : Option Int)
  | meta (pos : Int)
  deriving Repr, DecidableEq

/-- State of the extraction loop. -/
structure P2St where
  pos  : Int
  size : Int
  ifrm : Int
  fgch : Option Int
  dict : Nat → Nat
  evs  : List Ev

/-- Result of the extraction pass. -/
structure P2Out where
  ifrm : Int
  evs  : List Ev
  pos  : Int
  size : Int
  deriving Repr, DecidableEq

/-- Global parameters of the extraction pass, fixed for the whole loop:
the buffer, global flags, screen geometry, background index, skip count,
whether a metadata sink is installed, the counted frame total, and the
fuel given to each `_GIF_LoadFrame` call. -/
structure P2Env where
  d      : List Nat
  gflg   : Nat
  xdim   : Int
  ydim   : Int
  bkgd   : Int
  skip   : Int
  amdf   : Bool
  nfrm   : Int
  lfFuel : Nat

/-- `whdr.mode` as computed at lines 302-303 of the source:
`(fgch && !(fgch->flgs & 0x10)) ? (fgch->flgs & 0x0C) >> 2 : GIF_NONE`. -/
def gceMode (d : List Nat) (g : Option Int) : Int :=
  match g with
  | some p => if byteAt d p &&& 0x10 = 0
              then ((byteAt d p &&& 0x0C) >>> 2 : Nat) else 0
  | none => 0

/-- `whdr.time`: the remembered GCE's delay, or 0. -/
def gceTime (d : List Nat) (g : Option Int) : Int :=
  match g with
  | some p => u16le d (p + 1)
  | none => 0

/-- `whdr.tran`: the remembered GCE's transparent index when its
transparency bit is set, else -1. -/
def gceTran (d : List Nat) (g : Option Int) : Int :=
  match g with
  | some p => if byteAt d p &&& 0x01 ≠ 0 then (byteAt d (p + 3) : Int) else -1
  | none => -1

/-- The frame descriptor passed to the frame sink for the frame whose
`GIF_FHDR` starts at `pos` (one past the 0x2C tag), with remembered GCE
`g`, resolved colour count `clrs`, palette offset `cpal` and index
`ifrm`. -/
def frameRec (e : P2Env) (g : Option Int) (clrs cpal pos ifrm : Int) : WRec :=
  { xdim := e.xdim, ydim := e.ydim, clrs, bkgd := e.bkgd,
    tran := gceTran e.d g,
    intr := if byteAt e.d (pos + 8) &&& 0x40 ≠ 0 then 1 else 0,
    mode := gceMode e.d g,
    frxd := u16le e.d (pos + 4), fryd := u16le e.d (pos + 6),
    frxo := u16le e.d pos, fryo := u16le e.d (pos + 2),
    time := gceTime e.d g, ifrm, nfrm := e.nfrm, cpal }

/-- Common tail of the extraction loop body for a frame block: the
`continue` check (`whdr.ifrm >= skip && size > 0`), then the
skip-chunk-or-break check (the tag cannot be 0x3B here). -/
def pass2Cont (e : P2Env) (k : P2St → Option P2Out) (g : Option Int)
    (pos2 size2 ifrm2 : Int) (dict2 : Nat → Nat) (evs2 : List Ev) :
    Option P2Out :=
  if ifrm2 ≥ e.skip ∧ size2 > 0 then
    k ⟨pos2, size2, ifrm2, g, dict2, evs2⟩
  else
    let sc := GIF_SkipChunk e.d pos2 size2
    if sc.ok then k ⟨sc.pos, sc.size, ifrm2, g, dict2, evs2⟩
    else some ⟨ifrm2, evs2, sc.pos, sc.size⟩

/-- `(whdr.nfrm < 0)? -whdr.nfrm : whdr.nfrm`. -/
def absI (n : Int) : Int := if n < 0 then -n else n

/-- The extension-block handling of the extraction loop (the
`else if (desc == GIF_EHDM)` branch): remembers the GCE pointer for a
0xF9 label, emits a metadata event for a 0xFF label when a metadata sink
is installed.  `pos` and `size` are the cursor/size after consuming the
tag byte `desc`. -/
def pass2Ext (e : P2Env) (st : P2St) (pos size : Int) (desc : Nat) : P2St :=
  if desc = 0x21 then
    if byteAt e.d pos = 0xF9 then
      { st with pos, size, fgch := some (pos + 2) }
    else if byteAt e.d pos = 0xFF ∧ e.amdf then
      { st with pos, size, evs := st.evs ++ [Ev.meta (pos + 2)] }
    else { st with pos, size }
  else { st with pos, size }

@[simp] theorem pass2Ext_pos (e : P2Env) (st : P2St) (pos size : Int)
    (desc : Nat) : (pass2Ext e st pos size desc).pos = pos := by
  unfold pass2Ext
  split <;> first
    | rfl
    | (split
       · rfl
       · split <;> rfl)

@[simp] theorem pass2Ext_size (e : P2Env) (st : P2St) (pos size : Int)
    (desc : Nat) : (pass2Ext e st pos size desc).size = size := by
  unfold pass2Ext
  split <;> first
    | rfl
    | (split
       · rfl
       · split <;> rfl)

@[simp] theorem pass2Ext_ifrm (e : P2Env) (st : P2St) (pos size : Int)
    (desc : Nat) : (pass2Ext e st pos size desc).ifrm = st.ifrm := by
  unfold pass2Ext
  split <;> first
    | rfl
    | (split
       · rfl
       · split <;> rfl)

@[simp] theorem pass2Ext_dict (e : P2Env) (st : P2St) (pos size : Int)
    (desc : Nat) : (pass2Ext e st pos size desc).dict = st.dict := by
  unfold pass2Ext
  split <;> first
    | rfl
    | (split
       · rfl
       · split <;> rfl)

/-- The extraction pass (`while (skip < ...)` loop of `GIF_Load`). -/
def GIF_Pass2 (e : P2Env) : Nat → P2St → Option P2Out
  | 0, _ => none
  | fuel + 1, st =>
    if e.skip < absI e.nfrm then
      let size := st.size - 1
      let desc := byteAt e.d st.pos
      let pos := st.pos + 1
      if desc = 0x2C then
        -- found a frame
        let fh := GIF_LoadFrameHdr e.d pos size 9 e.gflg
                    (byteAt e.d (pos + 8)) (some 13)
        let ifrm := st.ifrm + 1
        if ifrm ≥ e.skip then
          if fh.rclr ≤ 0 then
            -- failed to extract the frame: `size = -(whdr.ifrm--)`
            pass2Cont e (GIF_Pass2 e fuel) st.fgch
              fh.pos (-ifrm) (ifrm - 1) st.dict st.evs
          else
            match GIF_LoadFrame e.d e.lfFuel fh.pos fh.size st.dict with
            | none => none
            | some lf =>
              if lf.ret < 0 then
                -- failed to extract the frame: `size = -(whdr.ifrm--)`
                pass2Cont e (GIF_Pass2 e fuel) st.fgch
                  lf.pos (-ifrm) (ifrm - 1) lf.dict st.evs
              else
                -- passing the frame to the caller
                pass2Cont e (GIF_Pass2 e fuel) st.fgch
                  lf.pos lf.size ifrm lf.dict
                  (st.evs ++ [Ev.frame
                    (frameRec e st.fgch fh.rclr (fh.rpal.getD 13) pos ifrm)
                    lf.pix st.fgch])
        else
          pass2Cont e (GIF_Pass2 e fuel) st.fgch
            fh.pos fh.size ifrm st.dict st.evs
      else
        let st2 := pass2Ext e st pos size desc
        if desc = 0x3B then some ⟨st2.ifrm, st2.evs, st2.pos, st2.size⟩
        else
          let sc := GIF_SkipChunk e.d st2.pos st2.size
          if sc.ok then
            GIF_Pass2 e fuel { st2 with pos := sc.pos, size := sc.size }
          else some ⟨st2.ifrm, st2.evs, sc.pos, sc.size⟩
    else some ⟨st.ifrm, st.evs, st.pos, st.size⟩

/-- Result of `GIF_Load`: return value, events (sink calls in order),
allocator-hook calls `(op, size)` in order, the counted frame total
`nfrm`, and the final frame index of the extraction loop. -/
structure GLOut where
  ret    : Int
  evs    : List Ev
  allocs : List (Nat × Int)
  nfrm   : Int
  ifrm   : Int
  deriving Repr, DecidableEq

/-- Does the input pass the signature / size / skip validation at the top
of `GIF_Load`? -/
def sigOK (d : List Nat) (size skip : Int) : Prop :=
  ¬ (size ≤ 13 ∨ byteAt d 0 ≠ 71 ∨ byteAt d 1 ≠ 73 ∨ byteAt d 2 ≠ 70 ∨
     byteAt d 3 ≠ 56 ∨ skip < 0 ∨ (byteAt d 4 ≠ 55 ∧ byteAt d 4 ≠ 57) ∨
     byteAt d 5 ≠ 97)

instance (d : List Nat) (size skip : Int) : Decidable (sigOK d size skip) :=
  inferInstanceAs (Decidable (¬ _))

/-- `GIF_Load(data, size, gwfr, amdf, anim, skip)`.  `amdf` tells whether
a metadata sink is installed; `dict0` is the uninitialised content of the
LZW scratch area after allocation. -/
def GIF_Load (d : List Nat) (size skip : Int) (amdf : Bool)
    (dict0 : Nat → Nat) (fuel : Nat) : Option GLOut :=
  if ¬ sigOK d size skip then some ⟨0, [], [], 0, 0⟩
  else
    let gflg := byteAt d 10
    let fh0 := GIF_LoadFrameHdr d 0 0 0 gflg 0 none
    let pos : Int := 13 + 3 * fh0.rclr
    let size := size - pos
    if size ≤ 0 then some ⟨0, [], [], 0, 0⟩
    else
      match GIF_Pass1 d gflg fuel pos size 0 with
      | none => none
      | some p1 =>
        let nfrm : Int := if p1.desc = 0x3B then p1.ifrm else -p1.ifrm
        let xdim : Int := u16le d 6
        let ydim : Int := u16le d 8
        let blen : Int := xdim * ydim + 16384
        let bkgd : Int := byteAt d 11
        let env : P2Env :=
          { d, gflg, xdim, ydim, bkgd, skip, amdf, nfrm, lfFuel := fuel }
        match GIF_Pass2 env fuel ⟨pos, size, -1, none, dict0, []⟩ with
        | none => none
        | some p2 =>
          some ⟨if nfrm < 0 then -p2.ifrm - 1 + skip else p2.ifrm + 1,
                p2.evs, [(1, blen), (0, blen)], nfrm, p2.ifrm⟩

end GifLoad

namespace GifLoad

/-! ## Characterisation of `_GIF_SkipChunk` (claim C8) -/

theorem chainWalkGo_gt (d : List Nat) :
    ∀ (f : Nat) (pos : Int), pos < chainWalkGo d f pos := by
  intro f
  induction f with
  | zero =>
    intro pos
    show pos < pos + 1
    omega
  | succ f ih =>
    intro pos
    show pos < (if byteAt d pos = 0 then pos + 1
                else chainWalkGo d f (pos + 1 + byteAt d pos))
    split
    · omega
    · have h := ih (pos + 1 + byteAt d pos)
      have : (0 : Int) ≤ byteAt d pos := Int.ofNat_nonneg _
      omega

theorem chainWalk_gt (d : List Nat) (pos : Int) : pos < chainWalk d pos :=
  chainWalkGo_gt d _ pos

/-- If the chain through its terminator fits strictly inside `size`,
the skip loop succeeds, landing one past the terminator with the size
decreased by exactly the bytes advanced. -/
theorem GIF_SkipLoop_eq_of_fit (d : List Nat) (pos size : Int)
    (h : chainWalk d pos - pos < size) :
    GIF_SkipLoop d pos size =
      ⟨true, chainWalk d pos, size - (chainWalk d pos - pos)⟩ := by
  by_cases hz : byteAt d pos = 0
  · have hcw : chainWalk d pos = pos + 1 := by
      rw [chainWalk_eq]
      simp [hz]
    rw [hcw] at h ⊢
    rw [GIF_SkipLoop_eq]
    dsimp only
    simp only [hz, Nat.cast_zero, add_zero]
    rw [if_neg (by omega), if_neg (by omega)]
    congr 1 <;> omega
  · have hcw : chainWalk d pos = chainWalk d (pos + 1 + byteAt d pos) := by
      rw [chainWalk_eq]
      simp [hz]
    have hgt := chainWalk_gt d (pos + 1 + byteAt d pos)
    have hb : 0 < byteAt d pos := Nat.pos_of_ne_zero hz
    rw [GIF_SkipLoop_eq]
    dsimp only
    rw [if_neg (by omega), if_pos (by omega)]
    have harg : pos + (1 + (byteAt d pos : Int)) = pos + 1 + byteAt d pos := by
      ring
    rw [harg]
    rw [GIF_SkipLoop_eq_of_fit d (pos + 1 + byteAt d pos)
        (size - (1 + byteAt d pos)) (by omega)]
    rw [← hcw]
    congr 1
    omega
termination_by size.toNat
decreasing_by
  have hgt := chainWalk_gt d (pos + 1 + byteAt d pos)
  omega

/-- If the chain does not fit strictly inside `size`, the skip loop
fails. -/
theorem GIF_SkipLoop_fail_of_nofit (d : List Nat) (pos size : Int)
    (h : size ≤ chainWalk d pos - pos) :
    (GIF_SkipLoop d pos size).ok = false := by
  by_cases hz : byteAt d pos = 0
  · have hcw : chainWalk d pos = pos + 1 := by
      rw [chainWalk_eq]
      simp [hz]
    rw [hcw] at h
    rw [GIF_SkipLoop_eq]
    dsimp only
    simp only [hz, Nat.cast_zero, add_zero]
    rw [if_pos (by omega)]
  · have hcw : chainWalk d pos = chainWalk d (pos + 1 + byteAt d pos) := by
      rw [chainWalk_eq]
      simp [hz]
    have hgt := chainWalk_gt d (pos + 1 + byteAt d pos)
    have hb : 0 < byteAt d pos := Nat.pos_of_ne_zero hz
    rw [GIF_SkipLoop_eq]
    dsimp only
    by_cases hle : size - (1 + (byteAt d pos : Int)) ≤ 0
    · rw [if_pos hle]
    · rw [if_neg hle, if_pos (by omega)]
      have harg : pos + (1 + (byteAt d pos : Int)) = pos + 1 + byteAt d pos := by
        ring
      rw [harg]
      exact GIF_SkipLoop_fail_of_nofit d (pos + 1 + byteAt d pos)
        (size - (1 + byteAt d pos)) (by omega)
termination_by size.toNat
decreasing_by
  omega

/-- Success test of `_GIF_SkipChunk`: it succeeds iff skipping one byte
and the whole sub-block chain leaves strictly positive remaining size. -/
theorem GIF_SkipChunk_ok_iff (d : List Nat) (pos size : Int) :
    (GIF_SkipChunk d pos size).ok = true ↔
      chainWalk d (pos + 1) - pos < size := by
  unfold GIF_SkipChunk
  dsimp only
  have hw := chainWalk_gt d (pos + 1)
  split
  · rename_i hle
    simp only [show (SkipOut.ok ⟨false, pos + 1, size - 1⟩) = false from rfl,
      Bool.false_eq_true, false_iff]
    omega
  · rename_i hgt
    by_cases hfit : chainWalk d (pos + 1) - (pos + 1) < size - 1
    · rw [GIF_SkipLoop_eq_of_fit d (pos + 1) (size - 1) hfit]
      simp only [show (SkipOut.ok ⟨true, _, _⟩) = true from rfl, true_iff]
      omega
    · rw [GIF_SkipLoop_fail_of_nofit d (pos + 1) (size - 1) (by omega)]
      simp only [Bool.false_eq_true, false_iff]
      omega

/-- Postcondition of `_GIF_SkipChunk` on success: the cursor lands one
past the chain's zero-length terminator and the size has decreased by
exactly the number of bytes advanced. -/
theorem GIF_SkipChunk_eq_of_fit (d : List Nat) (pos size : Int)
    (h : chainWalk d (pos + 1) - pos < size) :
    GIF_SkipChunk d pos size =
      ⟨true, chainWalk d (pos + 1), size - (chainWalk d (pos + 1) - pos)⟩ := by
  unfold GIF_SkipChunk
  dsimp only
  have hw := chainWalk_gt d (pos + 1)
  rw [if_neg (by omega)]
  rw [GIF_SkipLoop_eq_of_fit d (pos + 1) (size - 1) (by omega)]
  congr 1
  omega

end GifLoad

namespace GifLoad

/-- Is an event a frame-sink invocation? -/
def isFrame : Ev → Bool
  | .frame _ _ _ => true
  | .meta _ => false

/-- Number of frame-sink invocations recorded in an event list. -/
def countF (evs : List Ev) : Nat := (evs.filter isFrame).length

/-! ### Claim C8 -/

/-- C8 (counterexample): `_GIF_SkipChunk` on a 2-byte chain with exactly
2 bytes remaining fails ("insufficient data") although no advance exceeds
the remaining byte count (the total advance, 2, equals it).  This refutes
the claim's "if and only if some advance would exceed the remaining byte
count". -/
theorem C8_counterexample :
    (GIF_SkipChunk [0, 0] 0 2).ok = false ∧
    ¬ ((2 : Int) < chainWalk [0, 0] (0 + 1) - 0) := by
  decide

/-- C8 (amended): `_GIF_SkipChunk` fails iff some advance would reach or
exceed the remaining byte count (leave zero or fewer bytes), i.e. iff the
one-byte skip plus the sub-block chain through its terminator does not fit
*strictly* inside `size`; on success the cursor points one byte past the
chain's zero-length terminator and the remaining-byte counter has
decreased by exactly the number of bytes advanced. -/
theorem C8_skipChunk_amended (d : List Nat) (pos size : Int) :
    ((GIF_SkipChunk d pos size).ok = false ↔
      size ≤ chainWalk d (pos + 1) - pos) ∧
    ((GIF_SkipChunk d pos size).ok = true →
      GIF_SkipChunk d pos size =
        ⟨true, chainWalk d (pos + 1), size - (chainWalk d (pos + 1) - pos)⟩) := by
  constructor
  · have h := GIF_SkipChunk_ok_iff d pos size
    constructor
    · intro hf
      by_contra hlt
      rw [Bool.eq_false_iff] at hf
      exact hf (h.mpr (by omega))
    · intro hle
      rw [Bool.eq_false_iff]
      intro htrue
      have := h.mp htrue
      omega
  · intro hok
    exact GIF_SkipChunk_eq_of_fit d pos size ((GIF_SkipChunk_ok_iff d pos size).mp hok)

/-- C8 (witness): concrete instance of the amended claim on a two-block
chain. -/
theorem C8_witness :
    GIF_SkipChunk [9, 3, 7, 8, 9, 0] 0 7 = ⟨true, 6, 1⟩ := by
  have h := (C8_skipChunk_amended [9, 3, 7, 8, 9, 0] 0 7).2 (by decide)
  rw [h]
  decide

/-! ### Claim C9 -/

/-- The global palette byte count divisor: `rclr` of the `flen = 0` call
of `_GIF_LoadFrameHdr` on the global flags. -/
def glPal (d : List Nat) : Int :=
  (GIF_LoadFrameHdr d 0 0 0 (byteAt d 10) 0 none).rclr

/-- The single allocation's byte size: `xdim * ydim + GIF_BLEN`. -/
def glBlen (d : List Nat) : Int :=
  (u16le d 6 : Int) * (u16le d 8) + 16384

/-- C9 (counterexample): a non-empty 14-byte input that passes signature
validation (`GIF89a`, size 14 > 13, skip 0) but whose declared global
palette (0x87: 256 colours, 768 bytes) exceeds the data, so `GIF_Load`
returns 0 *before* any allocator call: the allocator is invoked zero
times, not exactly twice. -/
theorem C9_counterexample :
    sigOK [71, 73, 70, 56, 57, 97, 1, 0, 1, 0, 0x87, 0, 0, 0] 14 0 ∧
    (GIF_Load [71, 73, 70, 56, 57, 97, 1, 0, 1, 0, 0x87, 0, 0, 0] 14 0 false
        (fun _ => 0) 100).map GLOut.allocs = some [] := by
  decide

/-- C9 (amended): on any single `GIF_Load` call the allocator hook is
invoked at most twice — once with the allocate operation (op 1) and then
once with the free operation (op 0) for the same size — and it is invoked
exactly twice iff the input passes signature validation *and* the data
strictly exceeds the global header plus global palette; otherwise it is
not invoked at all. -/
theorem C9_allocs_amended (d : List Nat) (size skip : Int) (amdf : Bool)
    (dict0 : Nat → Nat) (fuel : Nat) (r : GLOut)
    (h : GIF_Load d size skip amdf dict0 fuel = some r) :
    (r.allocs = [] ∨ r.allocs = [(1, glBlen d), (0, glBlen d)]) ∧
    (sigOK d size skip ∧ 13 + 3 * glPal d < size →
      r.allocs = [(1, glBlen d), (0, glBlen d)]) ∧
    (¬ (sigOK d size skip ∧ 13 + 3 * glPal d < size) → r.allocs = []) := by
  unfold GIF_Load at h
  split at h
  · rename_i hsig
    refine ⟨Or.inl ?_, fun hc => absurd hc.1 hsig, fun _ => ?_⟩
    · cases h
      rfl
    · cases h
      rfl
  · rename_i hsig
    rw [not_not] at hsig
    dsimp only at h
    split at h
    · rename_i hsz
      refine ⟨Or.inl ?_, fun hc => ?_, fun _ => ?_⟩
      · cases h
        rfl
      · exfalso
        unfold glPal at hc
        omega
      · cases h
        rfl
    · rename_i hsz
      refine ⟨?_, fun hc => ?_, fun hc => ?_⟩ <;>
      · split at h
        · exact absurd h (by simp)
        · rename_i p1 hp1
          split at h
          · exact absurd h (by simp)
          · rename_i p2 hp2
            cases h
            first
            | exact Or.inr rfl
            | rfl
            | (exfalso
               apply hc
               refine ⟨hsig, ?_⟩
               unfold glPal
               omega)

end GifLoad

namespace GifLoad

theorem countF_append (a b : List Ev) : countF (a ++ b) = countF a + countF b := by
  unfold countF
  rw [List.filter_append, List.length_append]

@[simp] theorem countF_nil : countF [] = 0 := rfl

@[simp] theorem countF_meta (a : List Ev) (p : Int) :
    countF (a ++ [Ev.meta p]) = countF a := by
  rw [countF_append]
  rfl

@[simp] theorem countF_frame (a : List Ev) (w : WRec) (px : List (Int × Nat))
    (g : Option Int) : countF (a ++ [Ev.frame w px g]) = countF a + 1 := by
  rw [countF_append]
  rfl

@[simp] theorem countF_pass2Ext (e : P2Env) (st : P2St) (pos size : Int)
    (desc : Nat) : countF (pass2Ext e st pos size desc).evs = countF st.evs := by
  unfold pass2Ext
  split
  · split
    · rfl
    · split
      · dsimp only
        rw [countF_meta]
      · rfl
  · rfl

/-- Counting behaviour of the common frame tail `pass2Cont`, given the
counting behaviour of its continuation. -/
theorem pass2Cont_countF (e : P2Env) (k : P2St → Option P2Out)
    (g : Option Int) (pos2 size2 ifrm2 : Int) (dict2 : Nat → Nat)
    (evs2 : List Ev) (out : P2Out)
    (hk : ∀ st' out', k st' = some out' →
      st'.ifrm ≤ out'.ifrm ∧
      (countF out'.evs : Int) - countF st'.evs =
        max 0 (out'.ifrm + 1 - e.skip) - max 0 (st'.ifrm + 1 - e.skip))
    (h : pass2Cont e k g pos2 size2 ifrm2 dict2 evs2 = some out) :
    ifrm2 ≤ out.ifrm ∧
    (countF out.evs : Int) - countF evs2 =
      max 0 (out.ifrm + 1 - e.skip) - max 0 (ifrm2 + 1 - e.skip) := by
  unfold pass2Cont at h
  split at h
  · exact hk _ _ h
  · dsimp only at h
    split at h
    · exact hk _ _ h
    · cases h
      refine ⟨le_refl _, ?_⟩
      dsimp only
      omega

/-- The delivered-count invariant of the extraction loop: on any run of
the loop, the number of frame-sink invocations added equals the change in
`max 0 (ifrm + 1 - skip)`, and the frame index never decreases net of a
single trailing rollback. -/
theorem pass2_countF (e : P2Env) :
    ∀ (fuel : Nat) (st : P2St) (out : P2Out),
      GIF_Pass2 e fuel st = some out →
      st.ifrm ≤ out.ifrm ∧
      (countF out.evs : Int) - countF st.evs =
        max 0 (out.ifrm + 1 - e.skip) - max 0 (st.ifrm + 1 - e.skip) := by
  intro fuel
  induction fuel with
  | zero =>
    intro st out h
    exact absurd h (by simp [GIF_Pass2])
  | succ fuel ih =>
    intro st out h
    rw [GIF_Pass2] at h
    split at h
    · dsimp only at h
      split at h
      · -- frame block
        split at h
        · -- ifrm ≥ skip
          split at h
          · -- clrs ≤ 0: rollback
            have := pass2Cont_countF _ _ _ _ _ _ _ _ _ ih h
            constructor
            · omega
            · have harith : st.ifrm + 1 - 1 = st.ifrm := by omega
              rw [harith] at this
              omega
          · split at h
            · exact absurd h (by simp)
            · split at h
              · -- decode failed: rollback
                have := pass2Cont_countF _ _ _ _ _ _ _ _ _ ih h
                constructor
                · omega
                · have harith : st.ifrm + 1 - 1 = st.ifrm := by omega
                  rw [harith] at this
                  omega
              · -- frame delivered
                rename_i hge _ _ _
                have := pass2Cont_countF _ _ _ _ _ _ _ _ _ ih h
                rw [countF_frame] at this
                constructor
                · omega
                · have h1 : max 0 (st.ifrm + 1 + 1 - e.skip) =
                      max 0 (st.ifrm + 1 - e.skip) + 1 := by omega
                  omega
        · -- ifrm < skip: frame skipped
          rename_i hlt
          have := pass2Cont_countF _ _ _ _ _ _ _ _ _ ih h
          constructor
          · omega
          · have h1 : max 0 (st.ifrm + 1 + 1 - e.skip) =
                max 0 (st.ifrm + 1 - e.skip) := by omega
            omega
      · -- extension / other / terminator
        rename_i hdesc
        split at h
        · -- desc = 0x3B
          cases h
          refine ⟨?_, ?_⟩ <;> simp
        · split at h
          · -- skip chunk ok: recurse
            have := ih _ _ h
            simp only [countF_pass2Ext, pass2Ext_ifrm] at this
            exact this
          · -- skip chunk failed: terminal
            cases h
            refine ⟨?_, ?_⟩ <;> simp
    · -- loop not entered
      cases h
      refine ⟨?_, ?_⟩
      · exact le_refl _
      · dsimp only
        omega

end GifLoad

namespace GifLoad

/-! ## Concrete inputs used by counterexamples and witnesses -/

/-- 13-byte `GIF89a` global header (1×1 screen, global palette of 2
colours) followed by the 6-byte global palette. -/
def gifHdr : List Nat :=
  [71, 73, 70, 56, 57, 97, 1, 0, 1, 0, 128, 0, 0, 0, 0, 0, 255, 255, 255]

/-- A well-formed 1×1 frame: descriptor, min-code-size 2, LZW stream
`clear, 0, stop`, chain terminator. -/
def frameOne : List Nat :=
  [44, 0, 0, 0, 0, 1, 0, 1, 0, 0, 2, 2, 0x44, 0x01, 0]

/-- A 1×1 frame whose LZW chain ends (zero-length sub-block) without an
end-of-data code: codes `clear, 0` only. -/
def frameNoStop : List Nat :=
  [44, 0, 0, 0, 0, 1, 0, 1, 0, 0, 2, 1, 0x04, 0]

/-- Valid single-frame GIF (35 bytes). -/
def gifValid1 : List Nat := gifHdr ++ frameOne ++ [59]

/-- Two well-formed frames, no 0x3B terminator (truncated; 49 bytes). -/
def gifTwoTrunc : List Nat := gifHdr ++ frameOne ++ frameOne

/-- GCE with flags 0x06 (user-input bit set, disposal field 1), then a
frame (43 bytes). -/
def gifGce06 : List Nat :=
  gifHdr ++ [0x21, 0xF9, 4, 0x06, 10, 0, 0, 0] ++ frameOne ++ [59]

/-- 2-colour global palette but min-LZW-code-size 3; the single pixel
decodes to index 4 (codes `clear=8, 4, stop=9`; 35 bytes). -/
def gifMinCode3 : List Nat :=
  gifHdr ++ [44, 0, 0, 0, 0, 1, 0, 1, 0, 0, 3, 2, 0x48, 0x09, 0, 59]

/-- First frame lacks a stop code, second frame is well-formed (49
bytes). -/
def gifNoStop : List Nat := gifHdr ++ frameNoStop ++ frameOne ++ [59]

/-- A complete GIF with zero frames: header, no palette, terminator. -/
def gifZeroFrames : List Nat := [71, 73, 70, 56, 57, 97, 1, 0, 1, 0, 0, 0, 0, 59]

/-- One complete frame, then a frame truncated right after its
min-code-size byte; no terminator (45 bytes). -/
def gifTruncTail : List Nat :=
  gifHdr ++ frameOne ++ [44, 0, 0, 0, 0, 1, 0, 1, 0, 0, 2]

/-- The 34-byte prefix of `gifTruncTail` containing exactly the complete
frame. -/
def gifTruncA : List Nat := gifHdr ++ frameOne

/-! ### Claim C1 (counterexample) -/

/-- C1 (counterexample): on a truncated two-frame GIF decoded with
`skip = 1`, one frame is decoded during the call, so the claim predicts
the return value −(1 + 1) = −2 (frames decoded this call plus skip,
negated).  The code returns −1: for truncated input the return value is
`skip − (final frame index + 1)`, i.e. minus the number of frames decoded
*this call only*, without adding `skip` again. -/
theorem C1_counterexample :
    (GIF_Load gifTwoTrunc 49 1 false (fun _ => 0) 100).map
        (fun r => (r.ret, r.nfrm, countF r.evs)) = some (-1, -2, 1) ∧
    (-1 : Int) ≠ -(1 + 1) := by
  decide

/-! ### Claim C4 (counterexample) -/

/-- C4 (counterexample): a GCE whose flags byte is 0x06 has the
user-input bit (bit 1, mask 0x02) set, so the claim requires the
delivered mode to be `GIF_NONE = 0`; but the code only tests bit 4
(mask 0x10) and delivers mode `(0x06 & 0x0C) >> 2 = 1`. -/
theorem C4_counterexample :
    (GIF_Load gifGce06 43 0 false (fun _ => 0) 100).map (fun r => r.evs) =
      some [Ev.frame
        { xdim := 1, ydim := 1, clrs := 2, bkgd := 0, tran := -1, intr := 0,
          mode := 1, frxd := 1, fryd := 1, frxo := 0, fryo := 0, time := 10,
          ifrm := 0, nfrm := 1, cpal := 13 } [(0, 0)] (some 22)] ∧
    byteAt gifGce06 22 &&& 0x02 ≠ 0 ∧ (1 : Int) ≠ 0 := by
  decide

/-! ### Claim C6 (counterexample) -/

/-- C6 (counterexample): the frame's palette resolves to `clrs = 2`, but
the LZW expander (min code size 3) writes the pixel byte 4, which is not
in `[0, clrs − 1]`. -/
theorem C6_counterexample :
    (GIF_Load gifMinCode3 35 0 false (fun _ => 0) 100).map (fun r => r.evs) =
      some [Ev.frame
        { xdim := 1, ydim := 1, clrs := 2, bkgd := 0, tran := -1, intr := 0,
          mode := 0, frxd := 1, fryd := 1, frxo := 0, fryo := 0, time := 0,
          ifrm := 0, nfrm := 1, cpal := 13 } [(0, 4)] none] ∧
    ¬ (4 : Nat) ≤ 2 - 1 := by
  decide

/-! ### Claim C3 (counterexample) -/

/-- C3 (counterexample): `gifTruncA` is the 34-byte prefix of
`gifTruncTail`; decoding it with `skip = 0` returns −1 (one frame, then
truncation), but decoding the *full* buffer with `skip = 1` does not
return a positive total: the remainder is itself truncated inside frame
2, and the call returns 0 with zero sink invocations. -/
theorem C3_counterexample :
    gifTruncA = gifTruncTail.take 34 ∧
    (GIF_Load gifTruncA 34 0 false (fun _ => 0) 100).map
        (fun r => (r.ret, countF r.evs)) = some (-1, 1) ∧
    (GIF_Load gifTruncTail 45 1 false (fun _ => 0) 100).map
        (fun r => (r.ret, countF r.evs)) = some (0, 0) ∧
    ¬ (0 : Int) > 0 := by
  decide

end GifLoad

namespace GifLoad

/-- C9 (witness): on a valid single-frame GIF the allocator is invoked
exactly twice, allocate then free, with the same size. -/
theorem C9_witness :
    (GIF_Load gifValid1 35 0 false (fun _ => 0) 100).map GLOut.allocs =
      some [(1, glBlen gifValid1), (0, glBlen gifValid1)] := by
  cases hEq : GIF_Load gifValid1 35 0 false (fun _ => 0) 100 with
  | none => exact absurd hEq (by decide)
  | some r =>
    have h := (C9_allocs_amended gifValid1 35 0 false (fun _ => 0) 100 r hEq).2.1
      ⟨by decide, by decide⟩
    simp [h]

/-! ### Claim C7: the recoverable missing-stop-code path -/

/-- The `.inr` results of the code loop pair tags with return values:
only the end-of-data branch returns from inside the loop. -/
theorem lfCodes_tag (d : List Nat) :
    ∀ (fuel : Nat) (st st' : LZS) (r : Int) (tag : LFTag),
      lfCodes d fuel st = some (.inr (st', r, tag)) →
      (tag = .edOk ∧ r = 1) ∨ (tag = .edBad ∧ r = -1) := by
  intro fuel
  induction fuel with
  | zero =>
    intro st st' r tag h
    exact absurd h (by simp [lfCodes])
  | succ fuel ih =>
    intro st st' r tag h
    rw [lfCodes] at h
    split at h
    · simp at h
    · dsimp only at h
      split at h
      · split at h
        · -- ED branch
          simp only [Option.some.injEq, Sum.inr.injEq, Prod.mk.injEq] at h
          obtain ⟨-, hr, htag⟩ := h
          by_cases hb : byteAt d (st.pos + st.bseq) ≠ 0
          · rw [if_pos hb] at hr htag
            exact Or.inr ⟨htag.symm, hr.symm⟩
          · rw [if_neg hb] at hr htag
            exact Or.inl ⟨htag.symm, hr.symm⟩
        · exact ih _ _ _ _ h
      · split at h
        · exact absurd h (by simp)
        · exact ih _ _ _ _ h

/-- The word loop propagates the code loop's returns. -/
theorem lfWords_tag (d : List Nat) :
    ∀ (fuel : Nat) (st st' : LZS) (r : Int) (tag : LFTag),
      lfWords d fuel st = some (.inr (st', r, tag)) →
      (tag = .edOk ∧ r = 1) ∨ (tag = .edBad ∧ r = -1) := by
  intro fuel
  induction fuel with
  | zero =>
    intro st st' r tag h
    exact absurd h (by simp [lfWords])
  | succ fuel ih =>
    intro st st' r tag h
    rw [lfWords] at h
    split at h
    · dsimp only at h
      split at h
      · exact absurd h (by simp)
      · rename_i rr hres
        cases h
        exact lfCodes_tag d _ _ _ _ _ hres
      · exact ih _ _ _ _ h
    · simp at h

/-- The block loop's results pair tags with return values; `.chainEnd`
(a zero-length sub-block read before any end-of-data code) goes exactly
with return value 0. -/
theorem lfBlocks_tag (d : List Nat) :
    ∀ (fuel : Nat) (st st' : LZS) (r : Int) (tag : LFTag),
      lfBlocks d fuel st = some (st', r, tag) →
      (tag = .edOk ∧ r = 1) ∨ (tag = .edBad ∧ r = -1) ∨
      (tag = .chainEnd ∧ r = 0) ∨ (tag = .err ∧ r = -5) := by
  intro fuel
  induction fuel with
  | zero =>
    intro st st' r tag h
    exact absurd h (by simp [lfBlocks])
  | succ fuel ih =>
    intro st st' r tag h
    rw [lfBlocks] at h
    split at h
    · simp only [Option.some.injEq, Prod.mk.injEq] at h
      obtain ⟨-, hr, htag⟩ := h
      exact Or.inr (Or.inr (Or.inr ⟨htag.symm, hr.symm⟩))
    · split at h
      · exact absurd h (by simp)
      · rename_i rr hres
        cases h
        rcases lfWords_tag d _ _ _ _ _ hres with ⟨h1, h2⟩ | ⟨h1, h2⟩
        · exact Or.inl ⟨h1, h2⟩
        · exact Or.inr (Or.inl ⟨h1, h2⟩)
      · rename_i st2 hres
        dsimp only at h
        split at h
        · exact ih _ _ _ _ h
        · simp only [Option.some.injEq, Prod.mk.injEq] at h
          obtain ⟨-, hr, htag⟩ := h
          exact Or.inr (Or.inr (Or.inl ⟨htag.symm, hr.symm⟩))

/-- Tag/return pairing for `_GIF_LoadFrame`: in particular `.chainEnd`
(the sub-block chain terminated before a stop code) returns exactly 0,
the recoverable status. -/
theorem GIF_LoadFrame_tag (d : List Nat) (fuel : Nat) (pos size : Int)
    (dict0 : Nat → Nat) (out : LFOut)
    (h : GIF_LoadFrame d fuel pos size dict0 = some out) :
    (out.tag = .edOk ∧ out.ret = 1) ∨ (out.tag = .edBad ∧ out.ret = -1) ∨
    (out.tag = .chainEnd ∧ out.ret = 0) ∨ (out.tag = .err ∧ out.ret < 0) := by
  unfold GIF_LoadFrame at h
  dsimp only at h
  split at h
  · cases h
    exact Or.inr (Or.inr (Or.inr ⟨rfl, by norm_num⟩))
  · split at h
    · cases h
      exact Or.inr (Or.inr (Or.inr ⟨rfl, by norm_num⟩))
    · split at h
      · cases h
        exact Or.inr (Or.inr (Or.inr ⟨rfl, by norm_num⟩))
      · split at h
        · cases h
          exact Or.inr (Or.inr (Or.inr ⟨rfl, by norm_num⟩))
        · split at h
          · exact absurd h (by simp)
          · rename_i hres
            cases h
            rcases lfBlocks_tag d _ _ _ _ _ hres with
              ⟨h1, h2⟩ | ⟨h1, h2⟩ | ⟨h1, h2⟩ | ⟨h1, h2⟩
            · exact Or.inl ⟨h1, h2⟩
            · exact Or.inr (Or.inl ⟨h1, h2⟩)
            · exact Or.inr (Or.inr (Or.inl ⟨h1, h2⟩))
            · refine Or.inr (Or.inr (Or.inr ⟨h1, ?_⟩))
              subst h2
              show (-5 : Int) < 0
              norm_num

end GifLoad

namespace GifLoad

/-- C7: if, while decoding a frame's LZW stream, the sub-block chain
terminates (a zero-length sub-block is read, exit tag `.chainEnd`)
before an end-of-data code is seen, `_GIF_LoadFrame` returns the
recoverable status 0, `GIF_Load`'s extraction loop still delivers that
frame to the frame sink with whatever pixels were produced (`lf.pix`),
and the loop continues decoding subsequent frames (it recurses rather
than breaking, whenever data remains). -/
theorem C7_recoverable (e : P2Env) (fuel : Nat) (st : P2St) (fh : FHOut)
    (lf : LFOut)
    (hfh : GIF_LoadFrameHdr e.d (st.pos + 1) (st.size - 1) 9 e.gflg
             (byteAt e.d (st.pos + 1 + 8)) (some 13) = fh)
    (hrun : e.skip < absI e.nfrm)
    (hdesc : byteAt e.d st.pos = 0x2C)
    (hskip : e.skip ≤ st.ifrm + 1)
    (hclrs : 0 < fh.rclr)
    (hlf : GIF_LoadFrame e.d e.lfFuel fh.pos fh.size st.dict = some lf)
    (htag : lf.tag = .chainEnd)
    (hsz : 0 < lf.size) :
    lf.ret = 0 ∧
    GIF_Pass2 e (fuel + 1) st =
      GIF_Pass2 e fuel
        ⟨lf.pos, lf.size, st.ifrm + 1, st.fgch, lf.dict,
         st.evs ++ [Ev.frame
           (frameRec e st.fgch fh.rclr (fh.rpal.getD 13) (st.pos + 1)
             (st.ifrm + 1))
           lf.pix st.fgch]⟩ := by
  have hret : lf.ret = 0 := by
    rcases GIF_LoadFrame_tag _ _ _ _ _ _ hlf with
      ⟨h1, h2⟩ | ⟨h1, h2⟩ | ⟨h1, h2⟩ | ⟨h1, h2⟩ <;>
      first
        | exact h2
        | (rw [htag] at h1; exact absurd h1 (by decide))
  refine ⟨hret, ?_⟩
  rw [GIF_Pass2]
  rw [if_pos hrun]
  dsimp only
  rw [if_pos hdesc, hfh, if_pos (by omega : st.ifrm + 1 ≥ e.skip),
    if_neg (by omega : ¬ fh.rclr ≤ 0), hlf]
  dsimp only
  rw [if_neg (by omega : ¬ lf.ret < 0)]
  unfold pass2Cont
  rw [if_pos ⟨by omega, hsz⟩]

end GifLoad

namespace GifLoad

/-- Extraction-loop environment for the `gifNoStop` run. -/
def c7env : P2Env := ⟨gifNoStop, 128, 1, 1, 0, 0, false, 2, 100⟩

/-- Extraction-loop state at the first frame of `gifNoStop`. -/
def c7st : P2St := ⟨19, 30, -1, none, fun _ => 0, []⟩

/-- C7 (witness): concrete instance — the first frame of `gifNoStop`
has no stop code; `_GIF_LoadFrame` returns 0 and the loop delivers the
frame and continues. -/
theorem C7_witness :
    ∃ lf, GIF_LoadFrame gifNoStop 100 29 20 (fun _ => 0) = some lf ∧
      lf.ret = 0 ∧
      GIF_Pass2 c7env 6 c7st =
        GIF_Pass2 c7env 5
          ⟨lf.pos, lf.size, 0, none, lf.dict,
           [Ev.frame (frameRec c7env none 2 13 20 0) lf.pix none]⟩ := by
  cases hEq : GIF_LoadFrame gifNoStop 100 29 20 (fun _ => 0) with
  | none =>
    have hs : (GIF_LoadFrame gifNoStop 100 29 20 (fun _ => 0)).isSome = true := by
      decide
    rw [hEq] at hs
    simp at hs
  | some lf =>
    have hv : (GIF_LoadFrame gifNoStop 100 29 20 (fun _ => 0)).map lfView =
        some ⟨0, 33, 16, [(0, 0)], LFTag.chainEnd⟩ := by decide
    rw [hEq] at hv
    have hview := Option.some.inj hv
    have htag : lf.tag = .chainEnd := congrArg LFView.tag hview
    have hsz : lf.size = 16 := congrArg LFView.size hview
    have h := C7_recoverable c7env 5 c7st ⟨2, 29, 20, some 13⟩ lf
      (by decide) (by decide) (by decide) (by decide) (by decide) hEq htag
      (by rw [hsz]; decide)
    refine ⟨lf, rfl, h.1, ?_⟩
    have h2 := h.2
    simpa using h2

end GifLoad

namespace GifLoad

end GifLoad

namespace GifLoad

/-! ### Claim C10: dictionary accesses stay inside `code[0..4095]` -/

/-- The expansion loop only changes `pix`, `wp` and `acc`. -/
theorem lfExpand_fields :
    ∀ (fuel : Nat) (st : LZS) (iter : Nat) (st' : LZS) (iterF : Nat),
      lfExpand fuel st iter = some (st', iterF) →
      st'.dict = st.dict ∧ st'.prev = st.prev ∧ st'.mask = st.mask ∧
      st'.ctsz = st.ctsz ∧ st'.ctbl = st.ctbl ∧ st'.curr = st.curr ∧
      st'.load = st.load ∧ st'.ccsz = st.ccsz ∧ st'.bszc = st.bszc ∧
      st'.bseq = st.bseq ∧ st'.pos = st.pos ∧ st'.size = st.size := by
  intro fuel
  induction fuel with
  | zero =>
    intro st iter st' iterF h
    exact absurd h (by simp [lfExpand])
  | succ fuel ih =>
    intro st iter st' iterF h
    rw [lfExpand] at h
    split at h
    · cases h
      exact ⟨rfl, rfl, rfl, rfl, rfl, rfl, rfl, rfl, rfl, rfl, rfl, rfl⟩
    · have hrec := ih _ _ _ _ h
      exact hrec

/-- Accesses of the expansion loop: every logged index stays below 4096
when the starting entry index does, and so does the returned head
index (each chain step masks with 0xFFF). -/
theorem lfExpand_acc :
    ∀ (fuel : Nat) (st : LZS) (iter : Nat) (st' : LZS) (iterF : Nat),
      lfExpand fuel st iter = some (st', iterF) → iter < 4096 →
      (∀ i ∈ st.acc, i < 4096) →
      iterF < 4096 ∧ (∀ i ∈ st'.acc, i < 4096) := by
  intro fuel
  induction fuel with
  | zero =>
    intro st iter st' iterF h
    exact absurd h (by simp [lfExpand])
  | succ fuel ih =>
    intro st iter st' iterF h hiter hacc
    rw [lfExpand] at h
    split at h
    · cases h
      refine ⟨hiter, ?_⟩
      intro i hi
      rw [List.mem_append] at hi
      rcases hi with hi | hi
      · exact hacc i hi
      · simp at hi
        omega
    · refine ih _ _ _ _ h ?_ ?_
      · calc rd32 st.dict iter &&& 0xFFF ≤ 0xFFF := Nat.and_le_right
          _ < 4096 := by norm_num
      · intro i hi
        rw [List.mem_append] at hi
        rcases hi with hi | hi
        · exact hacc i hi
        · simp at hi
          omega

/-- The state invariant carried through the LZW code loop: all logged
dictionary indices below 4096, `prev` a valid index, `mask` of the form
`2^k - 1` with `k ≤ 12`, and the validated min code size. -/
def lzInv (st : LZS) : Prop :=
  (∀ i ∈ st.acc, i < 4096) ∧ st.prev < 4096 ∧
  (∃ k, k ≤ 12 ∧ st.mask = 2 ^ k - 1) ∧ 2 ≤ st.ctsz ∧ st.ctsz ≤ 8

theorem mask_le_4095 (m : Nat) (h : ∃ k, k ≤ 12 ∧ m = 2 ^ k - 1) : m ≤ 4095 := by
  obtain ⟨k, hk, hm⟩ := h
  have : 2 ^ k ≤ 2 ^ 12 := Nat.pow_le_pow_right (by norm_num) hk
  omega

theorem lfSpmPre_ctsz (st : LZS) : (lfSpmPre st).1.ctsz = st.ctsz := by
  simp only [lfSpmPre]
  split
  · split <;> rfl
  · rfl

theorem lfSpmPre_curr (st : LZS) : (lfSpmPre st).1.curr = st.curr := by
  simp only [lfSpmPre]
  split
  · split <;> rfl
  · rfl

theorem lfSpmPre_prev (st : LZS) : (lfSpmPre st).1.prev < 4096 := by
  simp only [lfSpmPre]
  have h1 : ∀ (f : Nat → Nat) (i : Nat), (f i >>> 12) &&& 0xFFF < 4096 := by
    intro f i
    calc (f i >>> 12) &&& 0xFFF ≤ 0xFFF := Nat.and_le_right
      _ < 4096 := by norm_num
  split
  · split <;> exact h1 _ _
  · exact h1 _ _

theorem lfSpmPre_mask (st : LZS)
    (hmask : ∃ k, k ≤ 12 ∧ st.mask = 2 ^ k - 1) :
    ∃ k, k ≤ 12 ∧ (lfSpmPre st).1.mask = 2 ^ k - 1 := by
  obtain ⟨k, hk, hm⟩ := hmask
  simp only [lfSpmPre]
  split
  · split
    · rename_i hc hw
      obtain ⟨hw1, hw2⟩ := hw
      -- the widened mask: st.mask < 4095 forces k ≤ 11
      have hk11 : k ≤ 11 := by
        rcases Nat.lt_or_ge k 12 with h | h
        · omega
        · have hk12 : k = 12 := by omega
          subst hk12
          norm_num at hm
          omega
      have hpow : 2 ^ k ≤ 2 ^ 11 := Nat.pow_le_pow_right (by norm_num) hk11
      refine ⟨k + 1, by omega, ?_⟩
      dsimp only
      have : st.mask + st.mask + 1 = 2 ^ (k + 1) - 1 := by
        rw [hm]
        have h2 : 1 ≤ 2 ^ k := Nat.one_le_two_pow
        rw [pow_succ]
        omega
      rw [this]
      have h3 : 2 ^ (k + 1) ≤ 2 ^ 12 := Nat.pow_le_pow_right (by norm_num) (by omega)
      rw [Nat.mod_eq_of_lt (by norm_num at h3 ⊢; omega)]
    · exact ⟨k, hk, hm⟩
  · exact ⟨k, hk, hm⟩

theorem lfSpmPre_acc (st : LZS) (hprev : st.prev < 4096) (hcurr : st.curr < 4096)
    (hacc : ∀ i ∈ st.acc, i < 4096) :
    (∀ i ∈ (lfSpmPre st).1.acc, i < 4096) ∧ (lfSpmPre st).2 < 4096 := by
  simp only [lfSpmPre]
  have hiter : ∀ (c : Nat), (if st.curr ≥ c then st.prev else st.curr) < 4096 := by
    intro c
    split <;> assumption
  have hiterLe : (if st.ctbl + 1 ≤ st.curr then st.prev else st.curr) < 4096 := by
    split <;> assumption
  split
  · rename_i hc
    have hgoal : ∀ i ∈ st.acc ++ [st.prev, st.ctbl + 1], i < 4096 := by
      intro i hi
      rw [List.mem_append] at hi
      rcases hi with hi | hi
      · exact hacc i hi
      · simp at hi
        rcases hi with hi | hi <;> omega
    split <;>
    · refine ⟨?_, hiter _⟩
      intro i hi
      rw [List.mem_append] at hi
      rcases hi with hi | hi
      · exact hgoal i hi
      · simp at hi
        have := hiter (st.ctbl + 1)
        omega
  · refine ⟨?_, hiter _⟩
    intro i hi
    rw [List.mem_append] at hi
    rcases hi with hi | hi
    · exact hacc i hi
    · simp at hi
      have := hiter (st.ctbl + 1)
      omega

theorem lfSpmPost_inv (st : LZS) (iterF : Nat)
    (hacc : ∀ i ∈ st.acc, i < 4096) (hiterF : iterF < 4096)
    (hcurr : st.curr < 4096)
    (hmask : ∃ k, k ≤ 12 ∧ st.mask = 2 ^ k - 1)
    (hctsz1 : 2 ≤ st.ctsz) (hctsz2 : st.ctsz ≤ 8) :
    lzInv (lfSpmPost st iterF) := by
  simp only [lfSpmPost, lfAdvance, lzInv]
  split
  · split
    · rename_i h1 h2
      dsimp only at h2 ⊢
      refine ⟨?_, hcurr, hmask, hctsz1, hctsz2⟩
      intro i hi
      simp only [List.append_assoc, List.mem_append] at hi
      rcases hi with hi | hi
      · exact hacc i hi
      · simp at hi
        rcases hi with hi | hi | hi <;> omega
    · rename_i h1 h2
      dsimp only
      refine ⟨?_, hcurr, hmask, hctsz1, hctsz2⟩
      intro i hi
      simp only [List.mem_append] at hi
      rcases hi with hi | hi
      · exact hacc i hi
      · simp at hi
        omega
  · split
    · rename_i h1 h2
      dsimp only at h2 ⊢
      refine ⟨?_, hcurr, hmask, hctsz1, hctsz2⟩
      intro i hi
      simp only [List.mem_append] at hi
      rcases hi with hi | hi
      · exact hacc i hi
      · simp at hi
        rcases hi with hi | hi <;> omega
    · dsimp only
      exact ⟨hacc, hcurr, hmask, hctsz1, hctsz2⟩

end GifLoad

namespace GifLoad

theorem shiftLeft_one_eq (k : Nat) : (1 <<< k) = 2 ^ k := by
  rw [Nat.shiftLeft_eq, one_mul]

/-- The code loop preserves the invariant into both exit forms. -/
theorem lfCodes_inv (d : List Nat) :
    ∀ (fuel : Nat) (st : LZS) (res : LZS ⊕ (LZS × Int × LFTag)),
      lfCodes d fuel st = some res → lzInv st →
      (∀ st', res = .inl st' → lzInv st') ∧
      (∀ st' r tag, res = .inr (st', r, tag) → lzInv st') := by
  intro fuel
  induction fuel with
  | zero =>
    intro st res h
    exact absurd h (by simp [lfCodes])
  | succ fuel ih =>
    intro st res h hinv
    obtain ⟨hacc, hprev, hmask, hctsz1, hctsz2⟩ := hinv
    have hmle := mask_le_4095 _ hmask
    have hcurr : st.curr &&& st.mask < 4096 := by
      have := Nat.and_le_right (n := st.curr) (m := st.mask)
      omega
    rw [lfCodes] at h
    split at h
    · cases h
      refine ⟨fun st' he => ?_, fun st' r tag he => ?_⟩
      · cases he
        exact ⟨hacc, hprev, hmask, hctsz1, hctsz2⟩
      · cases he
    · dsimp only at h
      split at h
      · split at h
        · -- ED return
          cases h
          refine ⟨fun st' he => ?_, fun st' r tag he => ?_⟩
          · cases he
          · cases he
            exact ⟨hacc, hprev, hmask, hctsz1, hctsz2⟩
        · -- TD, then recurse
          refine ih _ _ h ?_
          refine ⟨hacc, ?_, ?_, hctsz1, hctsz2⟩
          · exact hcurr
          · refine ⟨st.ctsz + 1, by omega, ?_⟩
            show ((1 <<< (st.ctsz + 1)) - 1) % 65536 = 2 ^ (st.ctsz + 1) - 1
            rw [shiftLeft_one_eq]
            have h2 : 2 ^ (st.ctsz + 1) ≤ 2 ^ 9 :=
              Nat.pow_le_pow_right (by norm_num) (by omega)
            rw [Nat.mod_eq_of_lt (by norm_num at h2 ⊢; omega)]
      · -- SP/MP
        split at h
        · exact absurd h (by simp)
        · rename_i stE iterF heq
          have hpreacc := lfSpmPre_acc { st with curr := st.curr &&& st.mask }
            hprev hcurr hacc
          have hexp := lfExpand_acc _ _ _ _ _ heq hpreacc.2 hpreacc.1
          have hfields := lfExpand_fields _ _ _ _ _ heq
          refine ih _ _ h ?_
          refine lfSpmPost_inv stE iterF hexp.2 hexp.1 ?_ ?_ ?_ ?_
          · rw [hfields.2.2.2.2.2.1, lfSpmPre_curr]
            exact hcurr
          · rw [hfields.2.2.1]
            exact lfSpmPre_mask _ hmask
          · rw [hfields.2.2.2.1, lfSpmPre_ctsz]
            exact hctsz1
          · rw [hfields.2.2.2.1, lfSpmPre_ctsz]
            exact hctsz2

/-- The word loop preserves the invariant. -/
theorem lfWords_inv (d : List Nat) :
    ∀ (fuel : Nat) (st : LZS) (res : LZS ⊕ (LZS × Int × LFTag)),
      lfWords d fuel st = some res → lzInv st →
      (∀ st', res = .inl st' → lzInv st') ∧
      (∀ st' r tag, res = .inr (st', r, tag) → lzInv st') := by
  intro fuel
  induction fuel with
  | zero =>
    intro st res h
    exact absurd h (by simp [lfWords])
  | succ fuel ih =>
    intro st res h hinv
    obtain ⟨hacc, hprev, hmask, hctsz1, hctsz2⟩ := hinv
    rw [lfWords] at h
    split at h
    · dsimp only at h
      split at h
      · exact absurd h (by simp)
      · rename_i rr heq
        cases h
        have := lfCodes_inv d fuel _ _ heq
          (by exact ⟨hacc, hprev, hmask, hctsz1, hctsz2⟩)
        refine ⟨(fun st' he => nomatch he), fun st' r tag he => ?_⟩
        cases he
        exact this.2 _ _ _ rfl
      · rename_i st2 heq
        have hmid := lfCodes_inv d fuel _ _ heq
          (by exact ⟨hacc, hprev, hmask, hctsz1, hctsz2⟩)
        have hst2 := hmid.1 _ rfl
        obtain ⟨a2, p2, m2, c2a, c2b⟩ := hst2
        exact ih _ _ h (by exact ⟨a2, p2, m2, c2a, c2b⟩)
    · cases h
      refine ⟨fun st' he => ?_, fun st' r tag he => nomatch he⟩
      cases he
      exact ⟨hacc, hprev, hmask, hctsz1, hctsz2⟩

/-- The block loop preserves the invariant into its result state. -/
theorem lfBlocks_inv (d : List Nat) :
    ∀ (fuel : Nat) (st : LZS) (st' : LZS) (r : Int) (tag : LFTag),
      lfBlocks d fuel st = some (st', r, tag) → lzInv st → lzInv st' := by
  intro fuel
  induction fuel with
  | zero =>
    intro st st' r tag h
    exact absurd h (by simp [lfBlocks])
  | succ fuel ih =>
    intro st st' r tag h hinv
    obtain ⟨hacc, hprev, hmask, hctsz1, hctsz2⟩ := hinv
    rw [lfBlocks] at h
    split at h
    · cases h
      exact ⟨hacc, hprev, hmask, hctsz1, hctsz2⟩
    · split at h
      · exact absurd h (by simp)
      · rename_i rr heq
        cases h
        have := lfWords_inv d fuel _ _ heq
          (by exact ⟨hacc, hprev, hmask, hctsz1, hctsz2⟩)
        exact this.2 _ _ _ rfl
      · rename_i st2 heq
        have hmid := lfWords_inv d fuel _ _ heq
          (by exact ⟨hacc, hprev, hmask, hctsz1, hctsz2⟩)
        have hst2 := hmid.1 _ rfl
        obtain ⟨a2, p2, m2, c2a, c2b⟩ := hst2
        dsimp only at h
        split at h
        · exact ih _ _ _ _ h (by exact ⟨a2, p2, m2, c2a, c2b⟩)
        · cases h
          exact ⟨a2, p2, m2, c2a, c2b⟩

/-- C10: for every input buffer, including malformed or adversarial LZW
data, every read and every write that `_GIF_LoadFrame` performs on the
4096-entry dictionary scratch area `code[0..4095]` (all of which are
recorded in the access log `acc`) uses an index in `[0, 4095]`: new
entries are written only under the guard `ctbl < 4096`, and every code
value used as a lookup index is first masked to at most 12 bits. -/
theorem C10_dict_access (d : List Nat) (fuel : Nat) (pos size : Int)
    (dict0 : Nat → Nat) (out : LFOut)
    (h : GIF_LoadFrame d fuel pos size dict0 = some out) :
    ∀ i ∈ out.acc, i < 4096 := by
  unfold GIF_LoadFrame at h
  dsimp only at h
  split at h
  · cases h
    simp
  · split at h
    · cases h
      simp
    · rename_i hbseq
      split at h
      · cases h
        simp
      · rename_i hctsz
        have hctszB : 2 ≤ byteAt d pos ∧ byteAt d pos ≤ 8 := by
          rcases not_or.mp hctsz with ⟨h1, h2⟩
          omega
        split at h
        · cases h
          simp
        · split at h
          · exact absurd h (by simp)
          · rename_i heq
            cases h
            dsimp only
            refine (lfBlocks_inv d fuel _ _ _ _ heq ?_).1
            refine ⟨?_, by norm_num, ?_, hctszB.1, hctszB.2⟩
            · intro i hi
              dsimp only at hi
              rw [List.mem_range] at hi
              have hb : (1 : Nat) <<< byteAt d pos ≤ 1 <<< 8 := by
                rw [shiftLeft_one_eq, shiftLeft_one_eq]
                exact Nat.pow_le_pow_right (by norm_num) hctszB.2
              norm_num at hb
              omega
            · refine ⟨byteAt d pos + 1, by omega, ?_⟩
              dsimp only
              rw [shiftLeft_one_eq]
              have h2 : 2 ^ (byteAt d pos + 1) ≤ 2 ^ 9 :=
                Nat.pow_le_pow_right (by norm_num) (by omega)
              rw [Nat.mod_eq_of_lt (by norm_num at h2 ⊢; omega)]

theorem C10_witness :
    ((GIF_LoadFrame gifNoStop 100 29 20 (fun _ => 0)).elim []
      LFOut.acc).all (fun i => decide (i < 4096)) = true := by
  cases heq : GIF_LoadFrame gifNoStop 100 29 20 (fun _ => 0) with
  | none => rfl
  | some out =>
    have hmain := C10_dict_access gifNoStop 100 29 20 (fun _ => 0) out heq
    simp only [Option.elim]
    rw [List.all_eq_true]
    intro i hi
    exact decide_eq_true (hmain i hi)

/-! ## C6: the range of decoded pixel bytes

Every pixel byte `_GIF_LoadFrame` writes is the top byte (`>> 24`) of
some dictionary cell.  The initial cells hold `iter << 24` with
`iter < 2^ctsz`; a new cell's top byte is the OR of at most a carry bit
(`< 2`, from `prev + 0x1000 + (code[prev] & 0xFFF000)` overflowing into
bits 24+) and the top byte of an existing cell, so all top bytes stay
below `2^ctsz` — provided the uninitialised scratch cells also satisfy
the bound, which the code never guarantees by itself. -/

theorem shiftRight_or_distrib (a b k : Nat) :
    (a ||| b) >>> k = a >>> k ||| b >>> k := by
  apply Nat.eq_of_testBit_eq
  intro i
  simp [Nat.testBit_shiftRight, Nat.testBit_or]

theorem shiftRight_le_shiftRight {a b : Nat} (k : Nat) (h : a ≤ b) :
    a >>> k ≤ b >>> k := by
  simp only [Nat.shiftRight_eq_div_pow]
  exact Nat.div_le_div_right h

/-- The expansion loop only appends pixels whose value is the top byte
of a dictionary cell, so a bound on all top bytes bounds all pixels. -/
theorem lfExpand_top (n : Nat) :
    ∀ (fuel : Nat) (st : LZS) (iter : Nat) (st' : LZS) (iterF : Nat),
      lfExpand fuel st iter = some (st', iterF) →
      (∀ i, rd32 st.dict i >>> 24 < 2 ^ n) →
      (∀ p ∈ st.pix, p.2 < 2 ^ n) →
      ∀ p ∈ st'.pix, p.2 < 2 ^ n := by
  intro fuel
  induction fuel with
  | zero =>
    intro st iter st' iterF h
    exact absurd h (by simp [lfExpand])
  | succ fuel ih =>
    intro st iter st' iterF h hd hp
    rw [lfExpand] at h
    have hp2 : ∀ p ∈ st.pix ++ [(st.wp, rd32 st.dict iter >>> 24)],
        p.2 < 2 ^ n := by
      intro p hmem
      rw [List.mem_append] at hmem
      rcases hmem with hmem | hmem
      · exact hp p hmem
      · simp at hmem
        subst hmem
        exact hd iter
    split at h
    · cases h
      exact hp2
    · exact ih _ _ _ _ h hd hp2

theorem lfSpmPre_pix (st : LZS) : (lfSpmPre st).1.pix = st.pix := by
  simp only [lfSpmPre]
  split
  · split <;> rfl
  · rfl

theorem lfSpmPost_ctsz (st : LZS) (iterF : Nat) :
    (lfSpmPost st iterF).ctsz = st.ctsz := by
  simp only [lfSpmPost, lfAdvance]
  split <;> split <;> rfl

/-- The new dictionary entry written before expansion
(`code[ctbl] = prev + 0x1000 + (code[prev] & 0xFFF000)`) has a top byte
of at most 1 (a carry out of the 12+12-bit fields), so a bound of at
least 4 on all top bytes is preserved. -/
theorem lfSpmPre_dictTop (n : Nat) (st : LZS) (hn : 2 ≤ n)
    (hprev : st.prev < 4096)
    (hd : ∀ i, rd32 st.dict i >>> 24 < 2 ^ n) :
    ∀ j, rd32 (lfSpmPre st).1.dict j >>> 24 < 2 ^ n := by
  have h4 : 4 ≤ 2 ^ n :=
    calc (4 : Nat) = 2 ^ 2 := by norm_num
    _ ≤ 2 ^ n := Nat.pow_le_pow_right (by norm_num) hn
  have key : ∀ (i j : Nat),
      rd32 (wr32 st.dict i
        ((st.prev + 0x1000 + (rd32 st.dict st.prev &&& 0xFFF000)) % 2 ^ 32)) j
        >>> 24 < 2 ^ n := by
    intro i j
    simp only [rd32, wr32]
    split
    · have hband : rd32 st.dict st.prev &&& 0xFFF000 ≤ 0xFFF000 :=
        Nat.and_le_right
      have hb : ((st.prev + 0x1000 + (rd32 st.dict st.prev &&& 0xFFF000))
          % 2 ^ 32) % 2 ^ 32 ≤ 16781311 :=
        le_trans (le_trans (Nat.mod_le _ _) (Nat.mod_le _ _)) (by omega)
      simp only [rd32] at hb
      rw [Nat.shiftRight_eq_div_pow]
      have hdiv := Nat.div_le_div_right (c := 2 ^ 24) hb
      have h1 : (16781311 : Nat) / 2 ^ 24 = 1 := by norm_num
      rw [h1] at hdiv
      omega
    · exact hd j
  simp only [lfSpmPre]
  split
  · split
    · intro j
      exact key _ j
    · intro j
      exact key _ j
  · intro j
    exact hd j

/-- The post-expansion step preserves the top-byte bound on the
dictionary (the suffix patch ORs in an existing top byte) and on the
pixel log (the KwKwK pixel is an existing top byte). -/
theorem lfSpmPost_top (n : Nat) (st : LZS) (iterF : Nat)
    (hd : ∀ i, rd32 st.dict i >>> 24 < 2 ^ n)
    (hp : ∀ p ∈ st.pix, p.2 < 2 ^ n) :
    (∀ i, rd32 (lfSpmPost st iterF).dict i >>> 24 < 2 ^ n) ∧
    ∀ p ∈ (lfSpmPost st iterF).pix, p.2 < 2 ^ n := by
  have key : ∀ j, rd32 (wr32 st.dict st.ctbl
      (rd32 st.dict st.ctbl ||| (rd32 st.dict iterF &&& 0xFF000000))) j
      >>> 24 < 2 ^ n := by
    intro j
    simp only [rd32, wr32]
    split
    · have hv : st.dict st.ctbl % 2 ^ 32
          ||| (st.dict iterF % 2 ^ 32 &&& 0xFF000000) < 2 ^ 32 := by
        refine Nat.or_lt_two_pow ?_ ?_
        · exact Nat.mod_lt _ (by norm_num)
        · exact lt_of_le_of_lt Nat.and_le_left (Nat.mod_lt _ (by norm_num))
      rw [Nat.mod_eq_of_lt hv, shiftRight_or_distrib]
      refine Nat.or_lt_two_pow ?_ ?_
      · exact hd st.ctbl
      · refine lt_of_le_of_lt (shiftRight_le_shiftRight 24 Nat.and_le_left) ?_
        exact hd iterF
    · exact hd j
  have hpx : ∀ p ∈ st.pix ++ [(st.wp + st.prev + 2, rd32 st.dict iterF >>> 24)],
      p.2 < 2 ^ n := by
    intro p hmem
    rw [List.mem_append] at hmem
    rcases hmem with hmem | hmem
    · exact hp p hmem
    · simp at hmem
      subst hmem
      exact hd iterF
  simp only [lfSpmPost, lfAdvance]
  split <;> split <;> refine ⟨?_, ?_⟩ <;> dsimp only <;>
    first
      | exact fun j => key j
      | exact fun j => hd j
      | exact hpx
      | exact hp

/-- The code loop preserves the top-byte bound `2^n` (with `n` the min
LZW code size) on all dictionary cells and all logged pixels. -/
theorem lfCodes_top (d : List Nat) (n : Nat) (hn : 2 ≤ n) :
    ∀ (fuel : Nat) (st : LZS) (res : LZS ⊕ (LZS × Int × LFTag)),
      lfCodes d fuel st = some res → lzInv st → st.ctsz = n →
      (∀ i, rd32 st.dict i >>> 24 < 2 ^ n) →
      (∀ p ∈ st.pix, p.2 < 2 ^ n) →
      (∀ st', res = .inl st' →
        st'.ctsz = n ∧ (∀ i, rd32 st'.dict i >>> 24 < 2 ^ n) ∧
        ∀ p ∈ st'.pix, p.2 < 2 ^ n) ∧
      (∀ st' r tag, res = .inr (st', r, tag) →
        ∀ p ∈ st'.pix, p.2 < 2 ^ n) := by
  intro fuel
  induction fuel with
  | zero =>
    intro st res h
    exact absurd h (by simp [lfCodes])
  | succ fuel ih =>
    intro st res h hinv hct hd hp
    obtain ⟨hacc, hprev, hmask, hctsz1, hctsz2⟩ := hinv
    have hmle := mask_le_4095 _ hmask
    have hcurr : st.curr &&& st.mask < 4096 := by
      have := Nat.and_le_right (n := st.curr) (m := st.mask)
      omega
    rw [lfCodes] at h
    split at h
    · cases h
      refine ⟨fun st' he => ?_, fun st' r tag he => ?_⟩
      · cases he
        exact ⟨hct, hd, hp⟩
      · cases he
    · dsimp only at h
      split at h
      · split at h
        · -- ED return
          cases h
          refine ⟨fun st' he => ?_, fun st' r tag he => ?_⟩
          · cases he
          · cases he
            exact hp
        · -- TD, then recurse
          refine ih _ _ h ?_ hct hd hp
          refine ⟨hacc, ?_, ?_, hctsz1, hctsz2⟩
          · exact hcurr
          · refine ⟨st.ctsz + 1, by omega, ?_⟩
            show ((1 <<< (st.ctsz + 1)) - 1) % 65536 = 2 ^ (st.ctsz + 1) - 1
            rw [shiftLeft_one_eq]
            have h2 : 2 ^ (st.ctsz + 1) ≤ 2 ^ 9 :=
              Nat.pow_le_pow_right (by norm_num) (by omega)
            rw [Nat.mod_eq_of_lt (by norm_num at h2 ⊢; omega)]
      · -- SP/MP
        split at h
        · exact absurd h (by simp)
        · rename_i stE iterF heq
          have hpreacc := lfSpmPre_acc { st with curr := st.curr &&& st.mask }
            hprev hcurr hacc
          have hexp := lfExpand_acc _ _ _ _ _ heq hpreacc.2 hpreacc.1
          have hfields := lfExpand_fields _ _ _ _ _ heq
          have hdM : ∀ i, rd32
              (lfSpmPre { st with curr := st.curr &&& st.mask }).1.dict i
                >>> 24 < 2 ^ n :=
            lfSpmPre_dictTop n { st with curr := st.curr &&& st.mask }
              hn hprev hd
          have hpM : ∀ p ∈
              (lfSpmPre { st with curr := st.curr &&& st.mask }).1.pix,
                p.2 < 2 ^ n := by
            rw [lfSpmPre_pix]
            exact hp
          have hdE : ∀ i, rd32 stE.dict i >>> 24 < 2 ^ n := by
            rw [hfields.1]
            exact hdM
          have hpE : ∀ p ∈ stE.pix, p.2 < 2 ^ n :=
            lfExpand_top n fuel _ _ _ _ heq hdM hpM
          have hpost := lfSpmPost_top n stE iterF hdE hpE
          refine ih _ _ h ?_ ?_ hpost.1 hpost.2
          · refine lfSpmPost_inv stE iterF hexp.2 hexp.1 ?_ ?_ ?_ ?_
            · rw [hfields.2.2.2.2.2.1, lfSpmPre_curr]
              exact hcurr
            · rw [hfields.2.2.1]
              exact lfSpmPre_mask _ hmask
            · rw [hfields.2.2.2.1, lfSpmPre_ctsz]
              exact hctsz1
            · rw [hfields.2.2.2.1, lfSpmPre_ctsz]
              exact hctsz2
          · rw [lfSpmPost_ctsz, hfields.2.2.2.1, lfSpmPre_ctsz]
            exact hct

/-- The word loop preserves the top-byte bound. -/
theorem lfWords_top (d : List Nat) (n : Nat) (hn : 2 ≤ n) :
    ∀ (fuel : Nat) (st : LZS) (res : LZS ⊕ (LZS × Int × LFTag)),
      lfWords d fuel st = some res → lzInv st → st.ctsz = n →
      (∀ i, rd32 st.dict i >>> 24 < 2 ^ n) →
      (∀ p ∈ st.pix, p.2 < 2 ^ n) →
      (∀ st', res = .inl st' →
        st'.ctsz = n ∧ (∀ i, rd32 st'.dict i >>> 24 < 2 ^ n) ∧
        ∀ p ∈ st'.pix, p.2 < 2 ^ n) ∧
      (∀ st' r tag, res = .inr (st', r, tag) →
        ∀ p ∈ st'.pix, p.2 < 2 ^ n) := by
  intro fuel
  induction fuel with
  | zero =>
    intro st res h
    exact absurd h (by simp [lfWords])
  | succ fuel ih =>
    intro st res h hinv hct hd hp
    obtain ⟨hacc, hprev, hmask, hctsz1, hctsz2⟩ := hinv
    rw [lfWords] at h
    split at h
    · dsimp only at h
      split at h
      · exact absurd h (by simp)
      · rename_i rr heq
        cases h
        have := lfCodes_top d n hn fuel _ _ heq
          (by exact ⟨hacc, hprev, hmask, hctsz1, hctsz2⟩) hct hd hp
        refine ⟨(fun st' he => nomatch he), fun st' r tag he => ?_⟩
        cases he
        exact this.2 _ _ _ rfl
      · rename_i st2 heq
        have hmid := lfCodes_top d n hn fuel _ _ heq
          (by exact ⟨hacc, hprev, hmask, hctsz1, hctsz2⟩) hct hd hp
        have hmidInv := lfCodes_inv d fuel _ _ heq
          (by exact ⟨hacc, hprev, hmask, hctsz1, hctsz2⟩)
        obtain ⟨c2, d2, p2⟩ := hmid.1 _ rfl
        obtain ⟨a2, q2, m2, t2a, t2b⟩ := hmidInv.1 _ rfl
        exact ih _ _ h (by exact ⟨a2, q2, m2, t2a, t2b⟩) c2 d2 p2
    · cases h
      refine ⟨fun st' he => ?_, fun st' r tag he => nomatch he⟩
      cases he
      exact ⟨hct, hd, hp⟩

/-- The block loop preserves the top-byte bound into its result state:
every pixel `_GIF_LoadFrame` logs is below `2^n`. -/
theorem lfBlocks_top (d : List Nat) (n : Nat) (hn : 2 ≤ n) :
    ∀ (fuel : Nat) (st : LZS) (st' : LZS) (r : Int) (tag : LFTag),
      lfBlocks d fuel st = some (st', r, tag) → lzInv st → st.ctsz = n →
      (∀ i, rd32 st.dict i >>> 24 < 2 ^ n) →
      (∀ p ∈ st.pix, p.2 < 2 ^ n) →
      ∀ p ∈ st'.pix, p.2 < 2 ^ n := by
  intro fuel
  induction fuel with
  | zero =>
    intro st st' r tag h
    exact absurd h (by simp [lfBlocks])
  | succ fuel ih =>
    intro st st' r tag h hinv hct hd hp
    obtain ⟨hacc, hprev, hmask, hctsz1, hctsz2⟩ := hinv
    rw [lfBlocks] at h
    split at h
    · cases h
      exact hp
    · split at h
      · exact absurd h (by simp)
      · rename_i rr heq
        cases h
        have := lfWords_top d n hn fuel _ _ heq
          (by exact ⟨hacc, hprev, hmask, hctsz1, hctsz2⟩) hct hd hp
        exact this.2 _ _ _ rfl
      · rename_i st2 heq
        have hmid := lfWords_top d n hn fuel _ _ heq
          (by exact ⟨hacc, hprev, hmask, hctsz1, hctsz2⟩) hct hd hp
        have hmidInv := lfWords_inv d fuel _ _ heq
          (by exact ⟨hacc, hprev, hmask, hctsz1, hctsz2⟩)
        obtain ⟨c2, d2, p2⟩ := hmid.1 _ rfl
        obtain ⟨a2, q2, m2, t2a, t2b⟩ := hmidInv.1 _ rfl
        dsimp only at h
        split at h
        · exact ih _ _ _ _ h (by exact ⟨a2, q2, m2, t2a, t2b⟩) c2 d2 p2
        · cases h
          exact p2

/-- C6 [amended]: decoded pixel bytes need not lie in `[0, clrs - 1]`
(see the counterexample: the palette size and the LZW root table size
are independent); the bound the expander actually guarantees is the
root code-table size `2^ctsz`, where `ctsz` is the frame's minimum LZW
code size byte, provided every uninitialised scratch dictionary cell
has a top byte below 4 (e.g. zeroed memory).  Since `2 <= ctsz <= 8` on
every successful path, every pixel byte is also below 256. -/
theorem C6_pixels_amended (d : List Nat) (fuel : Nat) (pos size : Int)
    (dict0 : Nat → Nat) (out : LFOut)
    (hdict0 : ∀ i, rd32 dict0 i >>> 24 < 4)
    (h : GIF_LoadFrame d fuel pos size dict0 = some out) :
    ∀ p ∈ out.pix, p.2 < 2 ^ byteAt d pos ∧ p.2 < 256 := by
  unfold GIF_LoadFrame at h
  dsimp only at h
  split at h
  · cases h
    simp
  · split at h
    · cases h
      simp
    · rename_i hbseq
      split at h
      · cases h
        simp
      · rename_i hctsz
        have hctszB : 2 ≤ byteAt d pos ∧ byteAt d pos ≤ 8 := by
          rcases not_or.mp hctsz with ⟨h1, h2⟩
          omega
        have hpow : 2 ^ byteAt d pos ≤ 256 := by
          have h2 : 2 ^ byteAt d pos ≤ 2 ^ 8 :=
            Nat.pow_le_pow_right (by norm_num) hctszB.2
          norm_num at h2
          exact h2
        split at h
        · cases h
          simp
        · split at h
          · exact absurd h (by simp)
          · rename_i heq
            cases h
            dsimp only
            have hinv : lzInv
                { pos := pos + 1 + 1, size := size - 1,
                  dict := fun i =>
                    if i < 1 <<< byteAt d pos then i <<< 24 else dict0 i,
                  wp := 0, pix := [],
                  acc := List.range (1 <<< byteAt d pos), load := 0,
                  curr := ((1 <<< (byteAt d pos + 1)) - 1) % 65536
                            &&& u16le d (pos + 1 + 1),
                  prev := 0, ctbl := 1 <<< byteAt d pos,
                  mask := ((1 <<< (byteAt d pos + 1)) - 1) % 65536,
                  ctsz := byteAt d pos, ccsz := byteAt d pos + 1,
                  bszc := -((byteAt d pos : Int) + 1),
                  bseq := (byteAt d (pos + 1) : Int) } := by
              refine ⟨?_, by norm_num, ?_, hctszB.1, hctszB.2⟩
              · intro i hi
                dsimp only at hi
                rw [List.mem_range] at hi
                have hb : (1 : Nat) <<< byteAt d pos ≤ 1 <<< 8 := by
                  rw [shiftLeft_one_eq, shiftLeft_one_eq]
                  exact Nat.pow_le_pow_right (by norm_num) hctszB.2
                norm_num at hb
                omega
              · refine ⟨byteAt d pos + 1, by omega, ?_⟩
                dsimp only
                rw [shiftLeft_one_eq]
                have h2 : 2 ^ (byteAt d pos + 1) ≤ 2 ^ 9 :=
                  Nat.pow_le_pow_right (by norm_num) (by omega)
                rw [Nat.mod_eq_of_lt (by norm_num at h2 ⊢; omega)]
            have hd0 : ∀ j, rd32
                (fun i => if i < 1 <<< byteAt d pos then i <<< 24 else dict0 i)
                j >>> 24 < 2 ^ byteAt d pos := by
              intro j
              simp only [rd32]
              split
              · rename_i hj
                rw [shiftLeft_one_eq] at hj
                have hj256 : j < 256 := by omega
                have hlt : j * 2 ^ 24 < 2 ^ 32 := by
                  have := Nat.mul_lt_mul_of_lt_of_le hj256 (le_refl (2 ^ 24))
                  norm_num at this ⊢
                  omega
                rw [Nat.shiftLeft_eq]
                rw [Nat.mod_eq_of_lt hlt, Nat.shiftRight_eq_div_pow]
                omega
              · have h4 : (4 : Nat) ≤ 2 ^ byteAt d pos :=
                  calc (4 : Nat) = 2 ^ 2 := by norm_num
                  _ ≤ 2 ^ byteAt d pos :=
                    Nat.pow_le_pow_right (by norm_num) hctszB.1
                have := hdict0 j
                simp only [rd32] at this
                omega
            have hmain := lfBlocks_top d (byteAt d pos) hctszB.1 fuel _ _ _ _
              heq hinv rfl hd0 (by simp)
            intro p hmem
            exact ⟨hmain p hmem, lt_of_lt_of_le (hmain p hmem) hpow⟩

theorem C6_witness :
    ((GIF_LoadFrame gifMinCode3 100 29 6 (fun _ => 0)).elim []
      LFOut.pix).all
      (fun p => decide (p.2 < 2 ^ byteAt gifMinCode3 29 ∧ p.2 < 256)) =
        true := by
  cases heq : GIF_LoadFrame gifMinCode3 100 29 6 (fun _ => 0) with
  | none => rfl
  | some out =>
    have hmain := C6_pixels_amended gifMinCode3 100 29 6 (fun _ => 0) out
      (fun i => by simp [rd32]) heq
    simp only [Option.elim]
    rw [List.all_eq_true]
    intro p hp
    exact decide_eq_true (hmain p hp)

/-- C1 [amended]: for a validated input that is large enough to enter
the decode loop, let `delivered = countF evs` be the number of frame
sink invocations and `ifrm` the final frame index (so `ifrm + 1` counts
every frame consumed this call, skipped ones included).  Always
`delivered = max 0 (ifrm + 1 - skip)`.  If the counting pass reached
the 0x3B terminator (`nfrm >= 0`), the return value is `ifrm + 1`,
which equals `delivered + skip` whenever it is at least `skip`.  If the
input was truncated (`nfrm < 0`), the return value is
`skip - (ifrm + 1)`: when at least one frame was delivered this equals
`-delivered` — the negative of the frames delivered **this call
alone**, not of `delivered + skip`. -/
theorem C1_return_amended (d : List Nat) (size skip : Int) (amdf : Bool)
    (dict0 : Nat → Nat) (fuel : Nat) (g : GLOut)
    (hsig : sigOK d size skip) (hsz : 13 + 3 * glPal d < size)
    (h : GIF_Load d size skip amdf dict0 fuel = some g) :
    (countF g.evs : Int) = max 0 (g.ifrm + 1 - skip) ∧
    (0 ≤ g.nfrm → g.ret = g.ifrm + 1 ∧
      ((skip : Int) ≤ g.ret → g.ret = (countF g.evs : Int) + skip)) ∧
    (g.nfrm < 0 → g.ret = skip - (g.ifrm + 1) ∧
      (0 < countF g.evs → g.ret = -(countF g.evs : Int))) := by
  have hskip : 0 ≤ skip := by
    unfold sigOK at hsig
    push_neg at hsig
    omega
  unfold GIF_Load at h
  split at h
  · rename_i hs
    exact absurd hsig hs
  · dsimp only at h
    split at h
    · rename_i hszc
      exfalso
      unfold glPal at hsz
      omega
    · split at h
      · exact absurd h (by simp)
      · rename_i p1 hp1
        split at h
        · exact absurd h (by simp)
        · rename_i p2 hp2
          cases h
          have hcf := pass2_countF _ _ _ _ hp2
          have h0 : (countF ([] : List Ev) : Int) = 0 := rfl
          have hcf2 : (countF p2.evs : Int) = max 0 (p2.ifrm + 1 - skip) := by
            have h2 := hcf.2
            dsimp only at h2
            omega
          dsimp only
          refine ⟨hcf2, fun hn => ?_, fun hn => ?_⟩
          · rw [if_neg (by omega)]
            exact ⟨rfl, fun hge => by omega⟩
          · rw [if_pos (by omega)]
            exact ⟨by ring, fun hpos => by omega⟩

theorem C1_witness :
    ∃ g, GIF_Load gifTwoTrunc 49 1 false (fun _ => 0) 100 = some g ∧
      (countF g.evs : Int) = max 0 (g.ifrm + 1 - 1) ∧
      (g.nfrm < 0 → g.ret = 1 - (g.ifrm + 1) ∧
        (0 < countF g.evs → g.ret = -(countF g.evs : Int))) := by
  cases heq : GIF_Load gifTwoTrunc 49 1 false (fun _ => 0) 100 with
  | none => exact absurd heq (by decide)
  | some g =>
    have hm := C1_return_amended gifTwoTrunc 49 1 false (fun _ => 0) 100 g
      (by decide) (by decide) heq
    exact ⟨g, rfl, hm.1, hm.2.2⟩

/-! ### Claim C2 -/

/-- C2 (counterexample): `gifZeroFrames` is a syntactically complete
GIF89a file — valid 13-byte header, no palette, and the 0x3B ending
mark immediately after — containing zero image blocks.  `GIF_Load`
returns 0 on it, which is not positive (and not nonzero), even though
it equals the number of sink invocations (0). -/
theorem C2_counterexample :
    sigOK gifZeroFrames 14 0 ∧
    byteAt gifZeroFrames 13 = 0x3B ∧
    (GIF_Load gifZeroFrames 14 0 false (fun _ => 0) 100).map
      (fun g => (g.ret, g.nfrm, countF g.evs)) = some (0, 0, 0) ∧
    ¬ (0 : Int) > 0 := by
  decide

/-- C2 [amended]: for a validated input large enough to enter the
decode loop and whose counting pass reaches the 0x3B terminator, with
`skip = 0` the return value is nonnegative and equals exactly the
number of frame-sink invocations; it is positive if and only if at
least one frame was delivered, and a complete GIF with zero image
blocks yields 0, not a positive count. -/
theorem C2_complete_amended (d : List Nat) (size : Int) (amdf : Bool)
    (dict0 : Nat → Nat) (fuel : Nat) (g : GLOut)
    (hsig : sigOK d size 0) (hsz : 13 + 3 * glPal d < size)
    (h : GIF_Load d size 0 amdf dict0 fuel = some g)
    (hc : 0 ≤ g.nfrm) :
    0 ≤ g.ret ∧ g.ret = (countF g.evs : Int) ∧
    (0 < g.ret ↔ 0 < countF g.evs) := by
  unfold GIF_Load at h
  split at h
  · rename_i hs
    exact absurd hsig hs
  · dsimp only at h
    split at h
    · rename_i hszc
      exfalso
      unfold glPal at hsz
      omega
    · split at h
      · exact absurd h (by simp)
      · rename_i p1 hp1
        split at h
        · exact absurd h (by simp)
        · rename_i p2 hp2
          have hcf := pass2_countF _ _ _ _ hp2
          have h0 : (countF ([] : List Ev) : Int) = 0 := rfl
          have hif := hcf.1
          dsimp only at hif
          cases h
          dsimp only at hc ⊢
          rw [if_neg (by omega)]
          have h2 := hcf.2
          dsimp only at h2
          refine ⟨by omega, by omega, by omega⟩

theorem C2_witness :
    ∃ g, GIF_Load gifValid1 35 0 false (fun _ => 0) 100 = some g ∧
      0 ≤ g.ret ∧ g.ret = (countF g.evs : Int) ∧
      (0 < g.ret ↔ 0 < countF g.evs) := by
  cases heq : GIF_Load gifValid1 35 0 false (fun _ => 0) 100 with
  | none => exact absurd heq (by decide)
  | some g =>
    have hn : g.nfrm = 1 := by
      have hmap : (GIF_Load gifValid1 35 0 false (fun _ => 0) 100).map
          GLOut.nfrm = some 1 := by decide
      rw [heq] at hmap
      simpa using hmap
    have hm := C2_complete_amended gifValid1 35 false (fun _ => 0) 100 g
      (by decide) (by decide) heq (by omega)
    exact ⟨g, rfl, hm⟩

/-! ### Claims C4 and C5: descriptor fields from the remembered GCE -/

/-- A frame event is well-formed when its `mode`, `time` and `tran`
descriptor fields are the ones computed from the graphics-control
extension remembered at delivery time (lines 302-303, 309-310 of the
source); metadata events carry no such fields. -/
def frOK (d : List Nat) : Ev → Prop := fun ev =>
  match ev with
  | .frame w _ g => w.mode = gceMode d g ∧ w.time = gceTime d g ∧
                    w.tran = gceTran d g
  | .meta _ => True

theorem pass2Ext_frOK (e : P2Env) (st : P2St) (pos size : Int) (desc : Nat)
    (hevs : ∀ ev ∈ st.evs, frOK e.d ev) :
    ∀ ev ∈ (pass2Ext e st pos size desc).evs, frOK e.d ev := by
  unfold pass2Ext
  split
  · split
    · exact hevs
    · split
      · intro ev hmem
        dsimp only at hmem
        rw [List.mem_append] at hmem
        rcases hmem with hm | hm
        · exact hevs ev hm
        · simp at hm
          subst hm
          trivial
      · exact hevs
  · exact hevs

theorem pass2Cont_frOK (e : P2Env) (k : P2St → Option P2Out)
    (g : Option Int) (pos2 size2 ifrm2 : Int) (dict2 : Nat → Nat)
    (evs2 : List Ev) (out : P2Out)
    (hk : ∀ st' out', k st' = some out' →
      (∀ ev ∈ st'.evs, frOK e.d ev) → ∀ ev ∈ out'.evs, frOK e.d ev)
    (hevs : ∀ ev ∈ evs2, frOK e.d ev)
    (h : pass2Cont e k g pos2 size2 ifrm2 dict2 evs2 = some out) :
    ∀ ev ∈ out.evs, frOK e.d ev := by
  unfold pass2Cont at h
  split at h
  · exact hk _ _ h hevs
  · dsimp only at h
    split at h
    · exact hk _ _ h hevs
    · cases h
      exact hevs

/-- Every frame event the extraction loop appends carries descriptor
fields computed from the GCE remembered at that moment. -/
theorem pass2_frOK (e : P2Env) :
    ∀ (fuel : Nat) (st : P2St) (out : P2Out),
      GIF_Pass2 e fuel st = some out →
      (∀ ev ∈ st.evs, frOK e.d ev) → ∀ ev ∈ out.evs, frOK e.d ev := by
  intro fuel
  induction fuel with
  | zero =>
    intro st out h
    exact absurd h (by simp [GIF_Pass2])
  | succ fuel ih =>
    intro st out h hevs
    rw [GIF_Pass2] at h
    split at h
    · dsimp only at h
      split at h
      · -- frame block
        split at h
        · -- ifrm ≥ skip
          split at h
          · exact pass2Cont_frOK _ _ _ _ _ _ _ _ _ ih hevs h
          · split at h
            · exact absurd h (by simp)
            · split at h
              · exact pass2Cont_frOK _ _ _ _ _ _ _ _ _ ih hevs h
              · -- frame delivered
                refine pass2Cont_frOK _ _ _ _ _ _ _ _ _ ih ?_ h
                intro ev hmem
                rw [List.mem_append] at hmem
                rcases hmem with hm | hm
                · exact hevs ev hm
                · simp at hm
                  subst hm
                  exact ⟨rfl, rfl, rfl⟩
        · exact pass2Cont_frOK _ _ _ _ _ _ _ _ _ ih hevs h
      · -- extension / other / terminator
        split at h
        · cases h
          exact pass2Ext_frOK _ _ _ _ _ hevs
        · split at h
          · exact ih _ _ h (pass2Ext_frOK _ _ _ _ _ hevs)
          · cases h
            exact pass2Ext_frOK _ _ _ _ _ hevs
    · cases h
      exact hevs

/-- Lift of `pass2_frOK` to `GIF_Load`: every delivered frame's
descriptor was computed from the remembered GCE. -/
theorem gifLoad_frOK (d : List Nat) (size skip : Int) (amdf : Bool)
    (dict0 : Nat → Nat) (fuel : Nat) (g : GLOut)
    (h : GIF_Load d size skip amdf dict0 fuel = some g) :
    ∀ ev ∈ g.evs, frOK d ev := by
  unfold GIF_Load at h
  split at h
  · cases h
    simp
  · dsimp only at h
    split at h
    · cases h
      simp
    · split at h
      · exact absurd h (by simp)
      · rename_i p1 hp1
        split at h
        · exact absurd h (by simp)
        · rename_i p2 hp2
          cases h
          dsimp only
          exact pass2_frOK _ _ _ _ hp2 (by simp)

/-- The remembered-GCE pointer is overwritten exactly by a 0x21
extension with label 0xF9 and persists through every other block. -/
theorem pass2Ext_fgch (e : P2Env) (st : P2St) (pos size : Int)
    (desc : Nat) :
    (pass2Ext e st pos size desc).fgch =
      if desc = 0x21 ∧ byteAt e.d pos = 0xF9 then some (pos + 2)
      else st.fgch := by
  unfold pass2Ext
  split
  · rename_i h1
    split
    · rename_i h2
      rw [if_pos ⟨h1, h2⟩]
    · rename_i h2
      rw [if_neg (c := desc = 0x21 ∧ byteAt e.d pos = 0xF9)
        (by intro hc; exact h2 hc.2)]
      split <;> rfl
  · rename_i h1
    rw [if_neg (c := desc = 0x21 ∧ byteAt e.d pos = 0xF9)
      (by intro hc; exact h1 hc.1)]

/-- C4 [amended]: the mode field passed to the frame sink is computed
from the remembered GCE's flags as `(flags & 0x0C) >> 2` under the
guard that bit 4 (mask 0x10, the top bit of the disposal field) is
clear — not the user-input bit 0x02, which the code never tests — and
is 0 when no GCE is remembered or that bit is set. -/
theorem C4_mode_amended (d : List Nat) (size skip : Int) (amdf : Bool)
    (dict0 : Nat → Nat) (fuel : Nat) (g : GLOut)
    (h : GIF_Load d size skip amdf dict0 fuel = some g) :
    (∀ ev ∈ g.evs, ∀ w pix gce, ev = Ev.frame w pix gce →
      w.mode = gceMode d gce) ∧
    (∀ p, gceMode d (some p) =
      if byteAt d p &&& 0x10 = 0
      then (((byteAt d p &&& 0x0C) >>> 2 : Nat) : Int) else (0 : Int)) ∧
    gceMode d none = 0 := by
  refine ⟨?_, fun p => rfl, rfl⟩
  intro ev hmem w pix gce hev
  have hok := gifLoad_frOK d size skip amdf dict0 fuel g h ev hmem
  subst hev
  exact hok.1

theorem C4_witness :
    ∃ g, GIF_Load gifGce06 43 0 false (fun _ => 0) 100 = some g ∧
      ∀ ev ∈ g.evs, ∀ w pix gce, ev = Ev.frame w pix gce →
        w.mode = gceMode gifGce06 gce := by
  cases heq : GIF_Load gifGce06 43 0 false (fun _ => 0) 100 with
  | none => exact absurd heq (by decide)
  | some g =>
    exact ⟨g, rfl, (C4_mode_amended gifGce06 43 0 false (fun _ => 0) 100 g
      heq).1⟩

/-- C5: every delivered frame's `time` and `tran` descriptor fields
come from the GCE remembered at delivery: `time` is the GCE's 16-bit
delay and `tran` its transparent index when the transparency bit
(0x01) is set, else -1; with no GCE remembered, `time = 0` and
`tran = -1`.  The remembered GCE is overwritten exactly by the next
0x21/0xF9 extension block and persists through every other block, so
it is the most recently seen GCE and keeps applying to subsequent
frames until overwritten. -/
theorem C5_gce_fields (d : List Nat) (size skip : Int) (amdf : Bool)
    (dict0 : Nat → Nat) (fuel : Nat) (g : GLOut)
    (h : GIF_Load d size skip amdf dict0 fuel = some g) :
    (∀ ev ∈ g.evs, ∀ w pix gce, ev = Ev.frame w pix gce →
      w.time = gceTime d gce ∧ w.tran = gceTran d gce) ∧
    (∀ p, gceTime d (some p) = u16le d (p + 1) ∧
      gceTran d (some p) =
        if byteAt d p &&& 0x01 ≠ 0 then (byteAt d (p + 3) : Int) else -1) ∧
    (gceTime d none = 0 ∧ gceTran d none = -1) ∧
    (∀ (e : P2Env) (st : P2St) (pos size : Int) (desc : Nat),
      (pass2Ext e st pos size desc).fgch =
        if desc = 0x21 ∧ byteAt e.d pos = 0xF9 then some (pos + 2)
        else st.fgch) := by
  refine ⟨?_, fun p => ⟨rfl, rfl⟩, ⟨rfl, rfl⟩,
    fun e st pos size desc => pass2Ext_fgch e st pos size desc⟩
  intro ev hmem w pix gce hev
  have hok := gifLoad_frOK d size skip amdf dict0 fuel g h ev hmem
  subst hev
  exact ⟨hok.2.1, hok.2.2⟩

theorem C5_witness :
    ∃ g, GIF_Load gifGce06 43 0 false (fun _ => 0) 100 = some g ∧
      ∀ ev ∈ g.evs, ∀ w pix gce, ev = Ev.frame w pix gce →
        w.time = gceTime gifGce06 gce ∧ w.tran = gceTran gifGce06 gce := by
  cases heq : GIF_Load gifGce06 43 0 false (fun _ => 0) 100 with
  | none => exact absurd heq (by decide)
  | some g =>
    exact ⟨g, rfl, (C5_gce_fields gifGce06 43 0 false (fun _ => 0) 100 g
      heq).1⟩

/-! ### Claim C3: resuming a partial load -/

/-- Per-run accounting of `GIF_Load`: delivered frames against the
final frame index, and the return-value formula in both the complete
and the truncated case. -/
theorem gifLoad_count (d : List Nat) (size skip : Int) (amdf : Bool)
    (dict0 : Nat → Nat) (fuel : Nat) (g : GLOut)
    (hsig : sigOK d size skip) (hsz : 13 + 3 * glPal d < size)
    (h : GIF_Load d size skip amdf dict0 fuel = some g) :
    (countF g.evs : Int) = max 0 (g.ifrm + 1 - skip) ∧ -1 ≤ g.ifrm ∧
    (0 ≤ g.nfrm → g.ret = g.ifrm + 1) ∧
    (g.nfrm < 0 → g.ret = skip - (g.ifrm + 1)) := by
  have hskip : 0 ≤ skip := by
    unfold sigOK at hsig
    push_neg at hsig
    omega
  unfold GIF_Load at h
  split at h
  · rename_i hs
    exact absurd hsig hs
  · dsimp only at h
    split at h
    · rename_i hszc
      exfalso
      unfold glPal at hsz
      omega
    · split at h
      · exact absurd h (by simp)
      · rename_i p1 hp1
        split at h
        · exact absurd h (by simp)
        · rename_i p2 hp2
          have hcf := pass2_countF _ _ _ _ hp2
          have h0 : (countF ([] : List Ev) : Int) = 0 := rfl
          have hif := hcf.1
          dsimp only at hif
          have h2 := hcf.2
          dsimp only at h2
          cases h
          dsimp only
          refine ⟨by omega, by omega, fun hn => ?_, fun hn => ?_⟩
          · rw [if_neg (by omega)]
          · rw [if_pos (by omega)]
            ring

/-- C3 [amended]: a return of `-m` from the prefix call means exactly
`m` frames were decoded and delivered by that call (these are the
frames the resumed call is asked to skip).  The resumed call on the
full buffer with `skip = m` delivers exactly
`max 0 (ifrm + 1 - m)` frames, where `ifrm` is its final frame index;
if its counting pass reaches the 0x3B terminator its return value is
`ifrm + 1`, which equals `delivered + m` whenever it is at least `m` —
but if the full buffer is itself truncated or a frame fails to decode,
the return can be 0 or negative, so the claimed unconditional positive
total does not hold. -/
theorem C3_resume_amended (buf : List Nat) (k : Nat) (size m : Int)
    (amdf : Bool) (dict0 dict1 : Nat → Nat) (fuel : Nat) (gA gB : GLOut)
    (hsigA : sigOK (buf.take k) k 0)
    (hszA : 13 + 3 * glPal (buf.take k) < (k : Int))
    (hA : GIF_Load (buf.take k) k 0 amdf dict0 fuel = some gA)
    (hretA : gA.ret = -m) (hm : 0 < m)
    (hsigB : sigOK buf size m) (hszB : 13 + 3 * glPal buf < size)
    (hB : GIF_Load buf size m amdf dict1 fuel = some gB) :
    (countF gA.evs : Int) = m ∧
    (countF gB.evs : Int) = max 0 (gB.ifrm + 1 - m) ∧
    (0 ≤ gB.nfrm → gB.ret = gB.ifrm + 1 ∧
      (m ≤ gB.ret → gB.ret = (countF gB.evs : Int) + m)) ∧
    (gB.nfrm < 0 → gB.ret = m - (gB.ifrm + 1)) := by
  have hcA := gifLoad_count _ _ _ _ _ _ _ hsigA hszA hA
  have hcB := gifLoad_count _ _ _ _ _ _ _ hsigB hszB hB
  have hAneg : gA.nfrm < 0 := by
    by_contra hc
    have := hcA.2.2.1 (by omega)
    omega
  have hAret := hcA.2.2.2 hAneg
  refine ⟨by omega, hcB.1, fun hn => ⟨hcB.2.2.1 hn, fun hge => by omega⟩,
    hcB.2.2.2⟩

theorem C3_witness :
    ∃ gA gB,
      GIF_Load (gifTruncTail.take 34) 34 0 false (fun _ => 0) 100 = some gA ∧
      GIF_Load gifTruncTail 45 1 false (fun _ => 0) 100 = some gB ∧
      gA.ret = -1 ∧
      (countF gA.evs : Int) = 1 ∧
      (countF gB.evs : Int) = max 0 (gB.ifrm + 1 - 1) ∧
      (gB.nfrm < 0 → gB.ret = 1 - (gB.ifrm + 1)) := by
  cases heqA : GIF_Load (gifTruncTail.take 34) 34 0 false (fun _ => 0) 100 with
  | none => exact absurd heqA (by decide)
  | some gA =>
    cases heqB : GIF_Load gifTruncTail 45 1 false (fun _ => 0) 100 with
    | none => exact absurd heqB (by decide)
    | some gB =>
      have hra : gA.ret = -1 := by
        have hmap : (GIF_Load (gifTruncTail.take 34) 34 0 false (fun _ => 0)
            100).map GLOut.ret = some (-1) := by decide
        rw [heqA] at hmap
        simpa using hmap
      have hm := C3_resume_amended gifTruncTail 34 45 1 false (fun _ => 0)
        (fun _ => 0) 100 gA gB (by decide) (by decide) heqA hra (by norm_num)
        (by decide) (by decide) heqB
      exact ⟨gA, gB, rfl, rfl, hra, hm.1, hm.2.1, hm.2.2.2⟩
